import Mathlib

/-!
# Verification of the ja-timex pipeline orchestrator (`ja_timex/timex.py`)

This file gives a shallow embedding of the `TimexParser` pipeline of
`ja_timex/timex.py` and settles the frozen claims about it.

Modelling conventions:

* Python strings are sequences of Unicode code points; we model them as
  `List Char` (`Str`) and all spans as character indices.
* Regular-expression patterns, their `parse_func` callbacks and the tagger
  objects are external collaborators (they live outside the core module);
  a pattern is an opaque handle of type `P`, interpreted through the
  configuration's `finditerOf` / `fullmatchOf` / `parseOf` functions.
* The character-class regexes that appear inline in `timex.py`
  (`[0-9\.:：/]+$` and `([0-9\.]+)(.+)`) are translated directly as
  character scanners reproducing Python `re` semantics (leftmost match,
  greedy with backtracking, `.` not matching a newline).
* `sorted(...)` in Python is a stable sort; we model it with
  `List.insertionSort`, which inserts every element after all earlier
  elements whose key is `≤` its own, i.e. the unique stable result.
-/

/-- Python strings viewed as sequences of code points. -/
abbrev Str := List Char

/-- A regular-expression match: character span `[start, stop)` plus the
matched substring (`group(0)`). -/
structure RawMatch where
  start : Nat
  stop : Nat
  text : Str
deriving Repr, DecidableEq

/-- The externally visible temporal tag (`ja_timex.tag.TIMEX`).
Modelled from the spec: the `TIMEX` class lives in `ja_timex/tag.py`,
which is not part of the core sources; the field list follows §3 of the
spec.  `pattern` is the back-reference to the originating pattern
(an opaque handle of type `P`), `reference` is an opaque instant. -/
structure TIMEX (P : Type) where
  tid : Option String := none
  type : String := ""
  value : String := ""
  text : Str := []
  span : Option (Nat × Nat) := none
  mod : Option String := none
  quant : Option String := none
  freq : Option String := none
  range_start : Bool := false
  range_end : Bool := false
  reference : Option Nat := none
  pattern : Option P := none
deriving Repr, DecidableEq

/-- An intermediate extraction result (`ja_timex.tag.Extract`).
Modelled from the spec: the `Extract` class lives in `ja_timex/tag.py`,
not in the core sources; per §3 it is the triple
(category, match, pattern). -/
structure Extract (P : Type) where
  type_name : String
  re_match : RawMatch
  pattern : P
deriving Repr, DecidableEq

/-- The parser configuration: the collaborators held by `TimexParser`
(cf. `TimexParser.__init__`).  Patterns are opaque handles of type `P`;
`finditerOf p` models `re.finditer(p.re_pattern, ·)`, `fullmatchOf p`
models `re.fullmatch(p.re_pattern, ·)` and `parseOf p` models the
pattern-owned callback `p.parse_func(·, p)` (which the taggers'
`parse_with_pattern` delegates to, per §2 step 5 / §6 of the spec). -/
structure Config (P : Type) where
  normalize : Str → Str
  finditerOf : P → Str → List RawMatch
  fullmatchOf : P → Str → Option RawMatch
  parseOf : P → RawMatch → TIMEX P
  custom : Option (List P)
  abstime : List P
  duration : List P
  reltime : List P
  setPatterns : List P
  filters : List (Extract P → Str → Bool)
  reference : Option Nat

/-- Modelled from the spec: `detect_range_expression_before_timex` lives in
`ja_timex/util.py`, which is not part of the core sources.  Per §4.5/§4.6 it
inspects the substring immediately to the left of `span_start` and returns
the recognized range token it ends with (the longest matching token), or
nothing. -/
def detect_range_expression_before_timex (span_start : Nat) (text : Str)
    (range_expressions : List Str) : Option Str :=
  let prefx := text.take span_start
  (range_expressions.filter (fun r => r.isSuffixOf prefx)).foldl
    (fun acc r =>
      match acc with
      | none => some r
      | some b => if b.length < r.length then some r else acc)
    none

/-- Modelled from the spec (§4.5): the default recognized range tokens of
`detect_range_expression_before_timex`: `から`, `〜`, `~`, `-`, `ー`, plus the
compound forms `から翌` and `から同`. -/
def defaultRangeExpressions : List Str :=
  [['か', 'ら'], ['〜'], ['~'], ['-'], ['ー'], ['か', 'ら', '翌'], ['か', 'ら', '同']]

/-- The explicit token list passed by `_extract_abbrev_patten`:
`["〜", "~", "-", "から", ",", "、"]`. -/
def abbrevRangeExpressions : List Str :=
  [['〜'], ['~'], ['-'], ['か', 'ら'], [','], ['、']]

/-- The character class `[0-9\.:：/]` of the lookback regex in
`_extract_abbrev_patten`. -/
def isNumRunChar (c : Char) : Bool :=
  c.isDigit || c = '.' || c = ':' || c = '：' || c = '/'

/-- The character class `[0-9\.]` of `([0-9\.]+)(.+)`. -/
def isNumDotChar (c : Char) : Bool :=
  c.isDigit || c = '.'

/-- `re.search(r"[0-9\.:：/]+$", s)`: without `re.MULTILINE`, `$` matches
at the end of the string or just before a newline that ends the string, so
the match is the maximal run of class characters ending there (the class
contains no newline, so when the string ends with `'\n'` only the
before-the-final-newline position can host a match).  Returns the match
with its absolute span inside `s`, or `none` when the run is empty. -/
def trailingNumRun (s : Str) : Option RawMatch :=
  let core := if s.getLast? = some '\n' then s.dropLast else s
  let k := (core.reverse.takeWhile isNumRunChar).length
  if k = 0 then none
  else some ⟨core.length - k, core.length, core.drop (core.length - k)⟩

/-- `re.search(r"([0-9\.]+)(.+)", s)`, returning `(group 1, group 2)`.
Python semantics: scan start positions left to right; at a position whose
character is in `[0-9\.]`, group 1 greedily takes the maximal class run;
`(.+)` then needs at least one character that is not a newline; if the run
reaches the end of the string (or a newline), group 1 backtracks by one
character (possible only when the run has length ≥ 2). -/
def numSuffixSearch : Str → Option (Str × Str)
  | [] => none
  | c :: rest =>
    if isNumDotChar c then
      let run := c :: rest.takeWhile isNumDotChar
      let after := rest.dropWhile isNumDotChar
      match after with
      | a :: after' =>
        if a = '\n' then
          if 2 ≤ run.length then
            some (run.dropLast, [run.getLast (List.cons_ne_nil _ _)])
          else numSuffixSearch rest
        else
          some (run, a :: after'.takeWhile (fun x => x ≠ '\n'))
      | [] =>
        if 2 ≤ run.length then
          some (run.dropLast, [run.getLast (List.cons_ne_nil _ _)])
        else numSuffixSearch rest
    else numSuffixSearch rest

/-- `TimexParser._extract` restricted to one category: apply each pattern's
`re.finditer` over the text and wrap every match in an `Extract`. -/
def extractWithPatterns {P : Type} (cfg : Config P) (type_name : String)
    (patterns : List P) (text : Str) : List (Extract P) :=
  patterns.foldl
    (fun acc p =>
      acc ++ (cfg.finditerOf p text).map (fun m => ⟨type_name, m, p⟩))
    []

/-- `TimexParser._extract`: iterate the `all_patterns` registry in insertion
order — `custom` first when present, then `abstime`, `duration`, `reltime`,
`set` (cf. `__init__`). -/
def extractAll {P : Type} (cfg : Config P) (text : Str) : List (Extract P) :=
  (match cfg.custom with
   | some ps => extractWithPatterns cfg "custom" ps text
   | none => []) ++
  extractWithPatterns cfg "abstime" cfg.abstime text ++
  extractWithPatterns cfg "duration" cfg.duration text ++
  extractWithPatterns cfg "reltime" cfg.reltime text ++
  extractWithPatterns cfg "set" cfg.setPatterns text

/-- The inner loop of `TimexParser._extract_filter` for one extract:
`allow_append` starts `True`, every registered filter is run (there is no
`break`), and a `True` verdict clears `allow_append`.  The second component
counts the filter invocations the loop performs. -/
def filterLoop {P : Type} (filters : List (Extract P → Str → Bool))
    (e : Extract P) (text : Str) : Bool × Nat :=
  filters.foldl
    (fun st f => (if f e text then false else st.1, st.2 + 1))
    (true, 0)

/-- `TimexParser._extract_filter`: keep exactly the extracts whose
`filterLoop` verdict is `True`, in order. -/
def extract_filter {P : Type} (cfg : Config P) (extracts : List (Extract P))
    (text : Str) : List (Extract P) :=
  extracts.foldl
    (fun acc e => if (filterLoop cfg.filters e text).1 then acc ++ [e] else acc)
    []

/-- Python's `<` on strings: code-point lexicographic comparison (a proper
prefix is smaller). -/
def strLtB : Str → Str → Bool
  | [], [] => false
  | [], _ :: _ => true
  | _ :: _, [] => false
  | a :: as, b :: bs => a.val < b.val || (a = b && strLtB as bs)

/-- The sort key comparison of `TimexParser._drop_duplicates`:
Python's tuple key `(x.re_match.span()[0], -len(x.re_match.group()), x.type_name)`
compared ascending; i.e. span start ascending, matched-text length
descending, then `type_name` ascending in code-point lexicographic order.
`extractKeyLE a b` holds iff `key a ≤ key b`. -/
def extractKeyLE {P : Type} (a b : Extract P) : Bool :=
  a.re_match.start < b.re_match.start ||
    (a.re_match.start = b.re_match.start &&
      (b.re_match.text.length < a.re_match.text.length ||
        (a.re_match.text.length = b.re_match.text.length &&
          (strLtB a.type_name.toList b.type_name.toList ||
            a.type_name = b.type_name))))

/-- `sorted(all_extracts, key=...)` in `_drop_duplicates`: a stable sort by
the composite key. -/
def ordered_extracts {P : Type} (extracts : List (Extract P)) : List (Extract P) :=
  List.insertionSort (fun a b => extractKeyLE a b = true) extracts

/-- Python list-slice assignment `flags[s:e] = [True] * (e - s)`. -/
def sliceAssignTrue (flags : List Bool) (s e : Nat) : List Bool :=
  flags.take s ++ List.replicate (e - s) true ++ flags.drop (max s e)

/-- Python `any(flags[s:e])`. -/
def sliceAny (flags : List Bool) (s e : Nat) : Bool :=
  ((flags.drop s).take (e - s)).any id

/-- One iteration of the acceptance loop of `_drop_duplicates`: if every
flag in the span of the extract is still clear, cover the span and append
the extract. -/
def dedupStep {P : Type} (st : List Bool × List (Extract P)) (e : Extract P) :
    List Bool × List (Extract P) :=
  if sliceAny st.1 e.re_match.start e.re_match.stop then st
  else (sliceAssignTrue st.1 e.re_match.start e.re_match.stop, st.2 ++ [e])

/-- The extracts accepted by `TimexParser._drop_duplicates`, in acceptance
order (the coverage list starts as `[False] * len(processed_text)`). -/
def dropDupAccepted {P : Type} (extracts : List (Extract P)) (text : Str) :
    List (Extract P) :=
  ((ordered_extracts extracts).foldl dedupStep
    (List.replicate text.length false, [])).2

/-- The keys of a Python `defaultdict` in insertion order: first occurrence
of each `type_name` in the accepted list. -/
def dictKeys {P : Type} (accepted : List (Extract P)) : List String :=
  (accepted.map (·.type_name)).foldl
    (fun acc k => if acc.contains k then acc else acc ++ [k]) []

/-- The `DefaultDict[str, List[Extract]]` returned by `_drop_duplicates`:
keys in first-insertion order, each bucket in acceptance order. -/
def drop_duplicates {P : Type} (extracts : List (Extract P)) (text : Str) :
    List (String × List (Extract P)) :=
  let accepted := dropDupAccepted extracts text
  (dictKeys accepted).map (fun k => (k, accepted.filter (·.type_name = k)))

/-- `TimexParser._parse`: iterate the per-type buckets in dict order and
normalize every extract through the pattern-owned parse callback (the
category dispatch `abstime/duration/reltime/set/custom` all delegate to
`parse_with_pattern`, i.e. to `extract.pattern.parse_func`; other keys have
no branch and produce nothing). -/
def parseStage {P : Type} (cfg : Config P)
    (type2extracts : List (String × List (Extract P))) : List (TIMEX P) :=
  type2extracts.foldl
    (fun acc kv =>
      if kv.1 = "abstime" ∨ kv.1 = "duration" ∨ kv.1 = "reltime" ∨
          kv.1 = "set" ∨ kv.1 = "custom" then
        acc ++ kv.2.map (fun e => cfg.parseOf e.pattern e.re_match)
      else acc)
    []

/-- The `index2timex_i` dictionary of `_modify_renge_start_and_end`: it maps
a character position to the index of the tag covering it; tags later in the
list overwrite earlier ones.  Positions are `Int` because the caller looks
up `span[0] - len(range_expression) - 1`, which can be negative. -/
def index2timexI {P : Type} (tags : List (TIMEX P)) (pos : Int) : Option Nat :=
  tags.enum.foldl
    (fun acc it =>
      match it.2.span with
      | some (s, e) => if (s : Int) ≤ pos ∧ pos < (e : Int) then some it.1 else acc
      | none => acc)
    none

/-- The body of the marking loop of `_modify_renge_start_and_end` for the
tag at index `t_i` of the (mutated-in-place) list `acc`; `orig` is the list
from which the `index2timex_i` dictionary was built before the loop. -/
def rangeMarkStep {P : Type} (orig : List (TIMEX P)) (text : Str)
    (acc : List (TIMEX P)) (t_i : Nat) : List (TIMEX P) :=
  match acc[t_i]? with
  | none => acc
  | some timex =>
    match timex.span with
    | none => acc
    | some (s, _e) =>
      if timex.type = "DURATION" then acc
      else
        match detect_range_expression_before_timex s text defaultRangeExpressions with
        | none => acc
        | some r =>
          match index2timexI orig ((s : Int) - r.length - 1) with
          | none => acc
          | some j =>
            match acc[j]? with
            | none => acc
            | some start_timex =>
              if start_timex.type = timex.type then
                let acc1 := acc.set j { start_timex with range_start := true }
                match acc1[t_i]? with
                | none => acc1
                | some cur => acc1.set t_i { cur with range_end := true }
              else acc

/-- `TimexParser._modify_renge_start_and_end` (the source's spelling):
build the position-to-tag index, then scan the tags in list order, marking
`range_start` on the abutting predecessor and `range_end` on the current
tag when a recognized range token separates two tags of equal type
(DURATION tags are skipped). -/
def modify_renge_start_and_end {P : Type} (tags : List (TIMEX P)) (text : Str) :
    List (TIMEX P) :=
  (List.range tags.length).foldl (rangeMarkStep tags text) tags

/-- The per-tag body of `TimexParser._extract_abbrev_patten`: when a range
token of the broader set precedes the tag, a trailing numeric run
(`[0-9\.:：/]+$`) ends just before the token, the tag's text splits as
`([0-9\.]+)(.+)`, the tag has a pattern, and `numeric_run + suffix` fully
matches that pattern, synthesize a new TIMEX through the pattern's parse
callback, overwriting its `text` with the bare numeric run and its `span`
with the run's span. -/
def abbrevSynth {P : Type} (cfg : Config P) (text : Str) (timex : TIMEX P) :
    Option (TIMEX P) :=
  match timex.span with
  | none => none
  | some (s, _e) =>
    match detect_range_expression_before_timex s text abbrevRangeExpressions with
    | none => none
    | some r =>
      match trailingNumRun (text.take (s - r.length)) with
      | none => none
      | some m_num =>
        match numSuffixSearch timex.text with
        | none => none
        | some g12 =>
          match timex.pattern with
          | none => none
          | some p =>
            let abbrev_full_text := m_num.text ++ g12.2
            match cfg.fullmatchOf p abbrev_full_text with
            | none => none
            | some m =>
              some { cfg.parseOf p m with
                       text := m_num.text,
                       span := some (m_num.start, m_num.stop) }

/-- `TimexParser._extract_abbrev_patten`: collect the synthesized tags in a
separate list while looping over the existing tags, then return
`timex_tags + additional_timexes`. -/
def extract_abbrev_patten {P : Type} (cfg : Config P) (tags : List (TIMEX P))
    (text : Str) : List (TIMEX P) :=
  tags ++
    tags.foldl
      (fun acc t =>
        match abbrevSynth cfg text t with
        | some a => acc ++ [a]
        | none => acc)
      []

/-- The sort key of `_modify_additional_information`:
`x.span[0] if x.span else 0`. -/
def tagSortKey {P : Type} (t : TIMEX P) : Nat :=
  match t.span with
  | some (s, _) => s
  | none => 0

/-- The loop body of `_modify_additional_information` for position `i`:
assign `tid = f"t{i}"` and attach the configured reference when present
(`pendulum.DateTime` instances are always truthy, so `if self.reference:`
is an is-not-None test). -/
def finalizeTag {P : Type} (cfg : Config P) (i : Nat) (a : TIMEX P) : TIMEX P :=
  let t1 := { a with tid := some ("t" ++ toString i) }
  match cfg.reference with
  | some r => { t1 with reference := some r }
  | none => t1

/-- `TimexParser._modify_additional_information`: stable-sort by span start
(spanless tags keyed 0), then assign tids (and the reference) in that
order. -/
def modify_additional_information {P : Type} (cfg : Config P)
    (tags : List (TIMEX P)) : List (TIMEX P) :=
  let sorted_tags :=
    List.insertionSort (fun a b => tagSortKey a ≤ tagSortKey b) tags
  sorted_tags.enum.map (fun it => finalizeTag cfg it.1 it.2)

/-- `TimexParser.parse` with the instance attribute `self.processed_text`
made explicit: the input state is its value before the call, the output
state its value after (`parse` assigns it from the normalizer before doing
anything else and never reads the previous value). -/
def parseS {P : Type} (cfg : Config P) (_stored : Option Str) (raw : Str) :
    List (TIMEX P) × Option Str :=
  let processed := cfg.normalize raw
  let all_extracts := extractAll cfg processed
  let filtered := extract_filter cfg all_extracts processed
  let type2extracts := drop_duplicates filtered processed
  let tags := parseStage cfg type2extracts
  let tags2 := modify_renge_start_and_end tags processed
  let tags3 := extract_abbrev_patten cfg tags2 processed
  (modify_additional_information cfg tags3, some processed)

/-- `TimexParser.parse` on a fresh parser instance. -/
def parse {P : Type} (cfg : Config P) (raw : Str) : List (TIMEX P) :=
  (parseS cfg none raw).1

/-! ## Specification-side definitions and auxiliary predicates -/

/-- The filter-chain evaluation described by the spec (§4.3 as read by the
claim): filters applied in registration order, stopping at the first filter
that returns `True`.  The second component counts filter invocations. -/
def shortCircuitFilterLoop {P : Type} (filters : List (Extract P → Str → Bool))
    (e : Extract P) (text : Str) : Bool × Nat :=
  match filters with
  | [] => (true, 0)
  | f :: rest =>
    if f e text then (false, 1)
    else
      let r := shortCircuitFilterLoop rest e text
      (r.1, r.2 + 1)

/-- The deduplication sort key as worded by the (amended) claim:
`(span.start ASC, -match.length, category)` with the category compared
lexicographically ascending; the middle component is the negated length as
an integer. -/
def specExtractLE {P : Type} (a b : Extract P) : Prop :=
  a.re_match.start < b.re_match.start ∨
    (a.re_match.start = b.re_match.start ∧
      (-(a.re_match.text.length : Int) < -(b.re_match.text.length : Int) ∨
        (-(a.re_match.text.length : Int) = -(b.re_match.text.length : Int) ∧
          (strLtB a.type_name.toList b.type_name.toList = true ∨
            a.type_name = b.type_name))))

instance {P : Type} : DecidableRel (@specExtractLE P) := fun _ _ => by
  unfold specExtractLE; infer_instance

/-- The deduplication sort key exactly as the claim states it, with the
category component compared lexicographically *descending*. -/
def claimDescExtractLE {P : Type} (a b : Extract P) : Bool :=
  a.re_match.start < b.re_match.start ||
    (a.re_match.start = b.re_match.start &&
      (b.re_match.text.length < a.re_match.text.length ||
        (a.re_match.text.length = b.re_match.text.length &&
          (strLtB b.type_name.toList a.type_name.toList ||
            a.type_name = b.type_name))))

/-- One acceptance step of the deduplicator as the spec words it: a set of
covered indices (here a `Nat → Bool` map), accept iff every index of
`[start, end)` is uncovered, then mark the span covered. -/
def dedupSpecStep {P : Type} (st : (Nat → Bool) × List (Extract P))
    (e : Extract P) : (Nat → Bool) × List (Extract P) :=
  if (List.range' e.re_match.start (e.re_match.stop - e.re_match.start)).all
      (fun p => !(st.1 p)) then
    (fun p =>
        if e.re_match.start ≤ p ∧ p < e.re_match.stop then true else st.1 p,
      st.2 ++ [e])
  else st

/-- The deduplicator as the amended claim describes it: stable sort by
`specExtractLE`, then the greedy coverage scan over a set of covered
indices. -/
def dedupSpecAccepted {P : Type} (extracts : List (Extract P)) :
    List (Extract P) :=
  ((List.insertionSort specExtractLE extracts).foldl dedupSpecStep
    (fun _ => false, [])).2

/-- The deduplicator as the claim literally states it, with the category
tie-break compared descending. -/
def dedupClaimDescAccepted {P : Type} (extracts : List (Extract P)) :
    List (Extract P) :=
  ((List.insertionSort (fun a b => claimDescExtractLE a b = true) extracts).foldl
    dedupSpecStep (fun _ => false, [])).2

/-- `e` covers character position `p`. -/
def coversE {P : Type} (e : Extract P) (p : Nat) : Prop :=
  e.re_match.start ≤ p ∧ p < e.re_match.stop

/-- Two extracts share no character position. -/
def ExtDisjoint {P : Type} (a b : Extract P) : Prop :=
  ¬ ∃ p, coversE a p ∧ coversE b p

/-- Invariant of the `_drop_duplicates` acceptance loop over a text of
length `L`: the coverage flags have length `L` and are exactly the union of
the accepted spans, the accepted extracts are pairwise disjoint and lie
within the text. -/
def DedupInv {P : Type} (L : Nat) (st : List Bool × List (Extract P)) : Prop :=
  st.1.length = L ∧
  (∀ p, st.1.getD p false = true ↔ ∃ e ∈ st.2, coversE e p) ∧
  List.Pairwise ExtDisjoint st.2 ∧
  (∀ e ∈ st.2, e.re_match.stop ≤ L)

/-- The decision taken by the marking loop of `_modify_renge_start_and_end`
for the tag at index `i`: `some j` when all conditions pass (tag `i` has a
span, is not a DURATION, a recognized range token precedes it, the position
`span[0] - len(token) - 1` belongs to the tag at index `j`, and the types
agree); `none` otherwise. -/
def rangePred {P : Type} (tags : List (TIMEX P)) (text : Str) (i : Nat) :
    Option Nat :=
  match tags[i]? with
  | none => none
  | some t =>
    match t.span with
    | none => none
    | some (s, _e) =>
      if t.type = "DURATION" then none
      else
        match detect_range_expression_before_timex s text defaultRangeExpressions with
        | none => none
        | some r =>
          match index2timexI tags ((s : Int) - r.length - 1) with
          | none => none
          | some j =>
            match tags[j]? with
            | none => none
            | some st => if st.type = t.type then some j else none

/-- Tag `i` receives `range_end` during the marking loop. -/
def markedEndB {P : Type} (tags : List (TIMEX P)) (text : Str) (i : Nat) : Bool :=
  (rangePred tags text i).isSome

/-- Tag `j` receives `range_start` from some tag among the first `k`. -/
def markedStartUpToB {P : Type} (tags : List (TIMEX P)) (text : Str)
    (k j : Nat) : Bool :=
  (List.range k).any (fun i => decide (rangePred tags text i = some j))

/-- Tag `j` receives `range_start` during the marking loop. -/
def markedStartB {P : Type} (tags : List (TIMEX P)) (text : Str) (j : Nat) : Bool :=
  markedStartUpToB tags text tags.length j

/-- A tag with updated range flags (all other fields unchanged). -/
def withFlags {P : Type} (t : TIMEX P) (rs re : Bool) : TIMEX P :=
  { t with range_start := rs, range_end := re }

/-- Whether two optional spans share a character index. -/
def spanSharesIndex (a b : Option (Nat × Nat)) : Bool :=
  match a, b with
  | some s1, some s2 => max s1.1 s2.1 < min s1.2 s2.2
  | _, _ => false

/-- The range-flag invariant: every tag with `range_end` has a mate with
`range_start`, equal type, and a strictly smaller span start. -/
def GoodRangeList {P : Type} (tags : List (TIMEX P)) : Prop :=
  ∀ (j : Nat) (tj : TIMEX P), tags[j]? = some tj → tj.range_end = true →
    ∃ (i : Nat) (ti : TIMEX P) (si ei sj ej : Nat),
      tags[i]? = some ti ∧ ti.range_start = true ∧
      ti.type = tj.type ∧ ti.span = some (si, ei) ∧ tj.span = some (sj, ej) ∧
      si < sj

/-- Erase the fields rewritten by the finalizer. -/
def clearTidRef {P : Type} (t : TIMEX P) : TIMEX P :=
  { t with tid := none, reference := none }

/-! ## Concrete instances used by counterexamples and witnesses -/

/-- The character class of the concrete custom regex `[0-9:]+` used by the
counterexample configuration. -/
def timeClassChar (c : Char) : Bool := c.isDigit || c = ':'

/-- Maximal-run scanner: `re.finditer` for a single character class
(accumulator-passing so that the kernel can evaluate it). -/
def classRunsGo (cls : Char → Bool) : Str → Nat → Option (Nat × Str) → List RawMatch
  | [], _, none => []
  | [], _, some st => [⟨st.1, st.1 + st.2.length, st.2.reverse⟩]
  | c :: rest, i, none =>
    if cls c then classRunsGo cls rest (i + 1) (some (i, [c]))
    else classRunsGo cls rest (i + 1) none
  | c :: rest, i, some st =>
    if cls c then classRunsGo cls rest (i + 1) (some (st.1, c :: st.2))
    else ⟨st.1, st.1 + st.2.length, st.2.reverse⟩ :: classRunsGo cls rest (i + 1) none

/-- `re.finditer(cls+, s)`: the maximal runs of `cls`-characters. -/
def classRuns (cls : Char → Bool) (s : Str) : List RawMatch :=
  classRunsGo cls s 0 none

/-- A parser configuration with one pattern behaving like `[0-9:]+` whose
parse callback copies the match's span and text into a TIME tag.  This is a
legitimate configuration (e.g. a custom or overridden tagger). -/
def cexCfg : Config Nat :=
  { normalize := id
    finditerOf := fun _ s => classRuns timeClassChar s
    fullmatchOf := fun _ s =>
      if s ≠ [] ∧ s.all timeClassChar then some ⟨0, s.length, s⟩ else none
    parseOf := fun _ m =>
      { type := "TIME", text := m.text, span := some (m.start, m.stop),
        pattern := some 0 }
    custom := none
    abstime := [0]
    duration := []
    reltime := []
    setPatterns := []
    filters := []
    reference := none }

/-- The input on which `cexCfg` produces overlapping output spans. -/
def cexText : Str := "12:00-17:30".toList

/-- `cexCfg` with a configured reference instant. -/
def refCfg : Config Nat := { cexCfg with reference := some 7 }

/-- An arbitrary pattern handle. -/
def dummyPat : Nat := 0

/-- An abstime extract over the single-character text `"1"`. -/
def eAbs : Extract Nat := ⟨"abstime", ⟨0, 1, ['1']⟩, dummyPat⟩

/-- A set extract over the same span as `eAbs`. -/
def eSet : Extract Nat := ⟨"set", ⟨0, 1, ['1']⟩, dummyPat⟩

/-- A custom extract over the same span as `eAbs`. -/
def eCus : Extract Nat := ⟨"custom", ⟨0, 1, ['1']⟩, dummyPat⟩

/-- An extract used to exercise the filter chain. -/
def eDum : Extract Nat := ⟨"abstime", ⟨0, 0, []⟩, dummyPat⟩

/-- Two filters that both always reject. -/
def twoRejectFilters : List (Extract Nat → Str → Bool) :=
  [fun _ _ => true, fun _ _ => true]

/-- Concrete tags for exercising the range annotator: two DATE tags over
`"1d-2d"`. -/
def wtTags : List (TIMEX Nat) :=
  [{ type := "DATE", text := "1d".toList, span := some (0, 2) },
   { type := "DATE", text := "2d".toList, span := some (3, 5) }]

/-- The text `"1d-2d"`. -/
def wtText : Str := "1d-2d".toList

/-- The tag produced by `cexCfg` for the match `17:30` of `cexText`. -/
def t17 : TIMEX Nat :=
  { type := "TIME", text := "17:30".toList, span := some (6, 11),
    pattern := some 0 }

/-- The character class `[0-9d]` used by the range-pair configuration. -/
def dayClassChar (c : Char) : Bool := c.isDigit || c = 'd'

/-- A configuration with one pattern behaving like `[0-9d]+`, which on
`"1d-2d"` produces an adjacent pair of same-type tags joined by `-`. -/
def c6Cfg : Config Nat :=
  { normalize := id
    finditerOf := fun _ s => classRuns dayClassChar s
    fullmatchOf := fun _ s =>
      if s ≠ [] ∧ s.all dayClassChar then some ⟨0, s.length, s⟩ else none
    parseOf := fun _ m =>
      { type := "DATE", text := m.text, span := some (m.start, m.stop),
        pattern := some 0 }
    custom := none
    abstime := [0]
    duration := []
    reltime := []
    setPatterns := []
    filters := []
    reference := none }

/-- The invariant maintained by the marking loop of
`_modify_renge_start_and_end` after the first `k` iterations. -/
def RengeInv {P : Type} (tags : List (TIMEX P)) (text : Str) (k : Nat)
    (acc : List (TIMEX P)) : Prop :=
  acc.length = tags.length ∧
  ∀ (i : Nat) (t : TIMEX P), tags[i]? = some t →
    acc[i]? = some (withFlags t
      (t.range_start || markedStartUpToB tags text k i)
      (t.range_end || (markedEndB tags text i && decide (i < k))))

/-! ## Helper lemmas -/

theorem filterLoop_fold_calls {P : Type} (filters : List (Extract P → Str → Bool))
    (e : Extract P) (text : Str) :
    ∀ st : Bool × Nat,
      (filters.foldl (fun st f => (if f e text then false else st.1, st.2 + 1)) st).2 =
        st.2 + filters.length := by
  induction filters with
  | nil => intro st; simp
  | cons f rest ih =>
    intro st
    simp only [List.foldl_cons, ih, List.length_cons]
    omega

theorem filterLoop_fold_verdict {P : Type} (filters : List (Extract P → Str → Bool))
    (e : Extract P) (text : Str) :
    ∀ st : Bool × Nat,
      (filters.foldl (fun st f => (if f e text then false else st.1, st.2 + 1)) st).1 =
        (st.1 && filters.all (fun f => !(f e text))) := by
  induction filters with
  | nil => intro st; simp
  | cons f rest ih =>
    intro st
    simp only [List.foldl_cons, ih, List.all_cons]
    by_cases h : f e text <;> simp [h]

theorem filterLoop_calls {P : Type} (filters : List (Extract P → Str → Bool))
    (e : Extract P) (text : Str) :
    (filterLoop filters e text).2 = filters.length := by
  unfold filterLoop
  rw [filterLoop_fold_calls]
  simp

theorem filterLoop_verdict {P : Type} (filters : List (Extract P → Str → Bool))
    (e : Extract P) (text : Str) :
    (filterLoop filters e text).1 = filters.all (fun f => !(f e text)) := by
  unfold filterLoop
  rw [filterLoop_fold_verdict]
  simp

theorem extract_filter_eq_filter {P : Type} (cfg : Config P)
    (extracts : List (Extract P)) (text : Str) :
    extract_filter cfg extracts text =
      extracts.filter (fun e => (filterLoop cfg.filters e text).1) := by
  unfold extract_filter
  suffices h : ∀ acc, extracts.foldl
      (fun acc e => if (filterLoop cfg.filters e text).1 then acc ++ [e] else acc) acc =
      acc ++ extracts.filter (fun e => (filterLoop cfg.filters e text).1) by
    simpa using h []
  induction extracts with
  | nil => intro acc; simp
  | cons e rest ih =>
    intro acc
    by_cases h : (filterLoop cfg.filters e text).1 <;>
      simp [List.filter_cons, h, ih]

theorem abbrev_fold_filterMap {P : Type} (cfg : Config P) (text : Str)
    (tags : List (TIMEX P)) :
    ∀ acc, tags.foldl
        (fun acc t =>
          match abbrevSynth cfg text t with
          | some a => acc ++ [a]
          | none => acc) acc =
      acc ++ tags.filterMap (abbrevSynth cfg text) := by
  induction tags with
  | nil => intro acc; simp
  | cons t rest ih =>
    intro acc
    cases h : abbrevSynth cfg text t <;>
      simp [List.filterMap_cons, h, ih]

/-! ## Claim C7 -/

/-- C7 counterexample: with two always-rejecting filters, the source's
filter loop invokes both filters on an extract (its invocation count is 2),
whereas the short-circuiting evaluation the claim describes stops after the
first (count 1).  The code does not short-circuit. -/
theorem filter_chain_no_short_circuit_cex :
    (filterLoop twoRejectFilters eDum []).2 = 2 ∧
    (shortCircuitFilterLoop twoRejectFilters eDum []).2 = 1 ∧
    (filterLoop twoRejectFilters eDum []).2 ≠
      (shortCircuitFilterLoop twoRejectFilters eDum []).2 := by
  refine ⟨rfl, rfl, ?_⟩
  decide

/-- C7 (amended): an Extract passes the filter stage iff every registered
filter returns `false` on it (filters are consulted in registration order);
however, the loop always evaluates every filter — it performs
`len(filters)` invocations per extract, with no short-circuiting. -/
theorem filter_chain_pass_iff_all_false {P : Type} (cfg : Config P)
    (extracts : List (Extract P)) (text : Str) :
    extract_filter cfg extracts text =
      extracts.filter (fun e => cfg.filters.all (fun f => !(f e text))) ∧
    ∀ e : Extract P, (filterLoop cfg.filters e text).2 = cfg.filters.length := by
  constructor
  · rw [extract_filter_eq_filter]
    have h : (fun e : Extract P => (filterLoop cfg.filters e text).1) =
        fun e => cfg.filters.all (fun f => !(f e text)) :=
      funext fun e => filterLoop_verdict cfg.filters e text
    rw [h]
  · intro e
    exact filterLoop_calls cfg.filters e text

/-! ## Claim C8 -/

/-- C8: `parse` is a pure function of the configuration and the input
string.  With the instance attribute `processed_text` made explicit as
threaded state, the produced tag list does not depend on the incoming
state, so a second invocation on the same input (after the first has
updated the attribute) returns the identical list. -/
theorem parse_deterministic {P : Type} (cfg : Config P)
    (stored1 stored2 : Option Str) (raw : Str) :
    (parseS cfg stored1 raw).1 = (parseS cfg stored2 raw).1 ∧
    (parseS cfg (parseS cfg stored1 raw).2 raw).1 = parse cfg raw := by
  exact ⟨rfl, rfl⟩

/-! ## Claim C10 -/

/-- C10: abbreviation expansion is single-pass: the synthesized tags are
exactly the per-tag synthesis results over the *input* list (so no
synthesized tag is examined as an anchor), collected separately and
concatenated after the original tags. -/
theorem abbrev_expansion_single_pass {P : Type} (cfg : Config P)
    (tags : List (TIMEX P)) (text : Str) :
    extract_abbrev_patten cfg tags text =
      tags ++ tags.filterMap (abbrevSynth cfg text) := by
  unfold extract_abbrev_patten
  rw [abbrev_fold_filterMap]
  simp

/-! ## Claim C4 -/

/-- C4: for every tag with a span and a pattern for which the expander
finds a preceding range token, a trailing numeric run, and a full anchored
match of `numeric_run + suffix` against the tag's pattern, exactly one new
TIMEX is produced through the pattern's parse callback, with its `text`
overwritten by the bare numeric run, its `span` overwritten by the run's
span, and every other field (in particular `mod` and `quant`) exactly as
the callback produced them; the stage's output is the original list
concatenated with the synthesized tags. -/
theorem abbrev_synthesis {P : Type} (cfg : Config P) (text : Str)
    (tags : List (TIMEX P)) :
    extract_abbrev_patten cfg tags text =
      tags ++ tags.filterMap (abbrevSynth cfg text) ∧
    ∀ (t : TIMEX P) (s e : Nat) (r : Str) (m_num : RawMatch)
      (g1 suffix : Str) (p : P) (m : RawMatch),
      t.span = some (s, e) →
      detect_range_expression_before_timex s text abbrevRangeExpressions = some r →
      trailingNumRun (text.take (s - r.length)) = some m_num →
      numSuffixSearch t.text = some (g1, suffix) →
      t.pattern = some p →
      cfg.fullmatchOf p (m_num.text ++ suffix) = some m →
      abbrevSynth cfg text t =
        some { cfg.parseOf p m with
                 text := m_num.text, span := some (m_num.start, m_num.stop) } := by
  constructor
  · unfold extract_abbrev_patten
    rw [abbrev_fold_filterMap]
    simp
  · intro t s e r m_num g1 suffix p m h1 h2 h3 h4 h5 h6
    simp [abbrevSynth, h1, h2, h3, h4, h5, h6]

/-- C4 witness: on `cexText = "12:00-17:30"` with the tag for `17:30`, all
hypotheses of `abbrev_synthesis` hold concretely and the expander
synthesizes the tag with text `12:00` and span `(0, 5)`. -/
theorem abbrev_synthesis_witness :
    t17.span = some (6, 11) ∧
    detect_range_expression_before_timex 6 cexText abbrevRangeExpressions =
      some ['-'] ∧
    trailingNumRun (cexText.take 5) = some ⟨0, 5, "12:00".toList⟩ ∧
    numSuffixSearch t17.text = some ("17".toList, ":30".toList) ∧
    t17.pattern = some 0 ∧
    cexCfg.fullmatchOf 0 ("12:00".toList ++ ":30".toList) =
      some ⟨0, 8, "12:00:30".toList⟩ ∧
    abbrevSynth cexCfg cexText t17 =
      some { cexCfg.parseOf 0 ⟨0, 8, "12:00:30".toList⟩ with
               text := "12:00".toList, span := some (0, 5) } := by
  refine ⟨by decide, by decide, by decide, by decide, by decide, by decide, ?_⟩
  exact (abbrev_synthesis cexCfg cexText [t17]).2 t17 6 11 ['-']
    ⟨0, 5, "12:00".toList⟩ "17".toList ":30".toList 0 ⟨0, 8, "12:00:30".toList⟩
    (by decide) (by decide) (by decide) (by decide) (by decide) (by decide)

theorem sliceAny_iff (flags : List Bool) (s e : Nat) :
    sliceAny flags s e = true ↔
      ∃ p, s ≤ p ∧ p < e ∧ flags.getD p false = true := by
  unfold sliceAny
  rw [List.any_eq_true]
  constructor
  · rintro ⟨x, hx, hid⟩
    rw [List.mem_iff_getElem] at hx
    obtain ⟨i, hi, hix⟩ := hx
    have hi1 : i < e - s := by
      have := hi
      simp [List.length_take, List.length_drop] at this
      omega
    have hi2 : s + i < flags.length := by
      have := hi
      simp [List.length_take, List.length_drop] at this
      omega
    refine ⟨s + i, by omega, by omega, ?_⟩
    rw [List.getD_eq_getElem?_getD, List.getElem?_eq_getElem hi2]
    have hval : ((flags.drop s).take (e - s))[i] = flags[s + i] := by
      rw [List.getElem_take, List.getElem_drop]
    simp only [id] at hid
    have hflag : flags[s + i] = true := by rw [← hval, hix]; exact hid
    simp [hflag]
  · rintro ⟨p, hsp, hpe, hgd⟩
    rw [List.getD_eq_getElem?_getD] at hgd
    have hp : p < flags.length := by
      by_contra h
      rw [List.getElem?_eq_none (by omega)] at hgd
      simp at hgd
    rw [List.getElem?_eq_getElem hp] at hgd
    simp at hgd
    have hlen : p - s < ((flags.drop s).take (e - s)).length := by
      simp [List.length_take, List.length_drop]
      omega
    refine ⟨true, ?_, rfl⟩
    rw [List.mem_iff_getElem]
    refine ⟨p - s, hlen, ?_⟩
    rw [List.getElem_take, List.getElem_drop]
    have : s + (p - s) = p := by omega
    simp_rw [this]
    exact hgd

theorem length_sliceAssignTrue (flags : List Bool) (s e : Nat)
    (he : e ≤ flags.length) :
    (sliceAssignTrue flags s e).length = flags.length := by
  unfold sliceAssignTrue
  simp [List.length_take, List.length_drop]
  omega

theorem getElem?_sliceAssignTrue (flags : List Bool) (s e p : Nat)
    (he : e ≤ flags.length) :
    (sliceAssignTrue flags s e)[p]? =
      if s ≤ p ∧ p < e then some true else flags[p]? := by
  unfold sliceAssignTrue
  rcases Nat.lt_or_ge e s with hes | hes
  · have h0 : e - s = 0 := by omega
    have hm : max s e = s := by omega
    rw [h0, hm]
    simp only [List.replicate_zero, List.nil_append, List.take_append_drop]
    have : ¬(s ≤ p ∧ p < e) := by omega
    simp [this]
  · have hm : max s e = e := by omega
    rw [hm, List.append_assoc]
    have hts : (flags.take s).length = s := by
      simp [List.length_take]
      omega
    rw [List.getElem?_append]
    rcases Nat.lt_or_ge p s with hp | hp
    · rw [hts]
      have hcond : ¬(s ≤ p ∧ p < e) := by omega
      simp [hp, hcond, List.getElem?_take]
    · rw [hts]
      have hp' : ¬(p < s) := by omega
      simp only [hp', if_false]
      rw [List.getElem?_append]
      simp only [List.length_replicate]
      rcases Nat.lt_or_ge (p - s) (e - s) with hq | hq
      · have hcond : s ≤ p ∧ p < e := by omega
        simp [hq, hcond, List.getElem?_replicate]
      · have hq' : ¬(p - s < e - s) := by omega
        have hcond : ¬(s ≤ p ∧ p < e) := by omega
        simp only [hq', if_false, hcond, if_false]
        rw [List.getElem?_drop]
        have : e + (p - s - (e - s)) = p := by omega
        rw [this]

theorem getD_sliceAssignTrue (flags : List Bool) (s e p : Nat)
    (he : e ≤ flags.length) :
    (sliceAssignTrue flags s e).getD p false =
      if s ≤ p ∧ p < e then true else flags.getD p false := by
  rw [List.getD_eq_getElem?_getD, List.getD_eq_getElem?_getD,
    getElem?_sliceAssignTrue flags s e p he]
  by_cases h : s ≤ p ∧ p < e <;> simp [h]

theorem getD_replicate_false (L p : Nat) :
    (List.replicate L false).getD p false = false := by
  rw [List.getD_eq_getElem?_getD, List.getElem?_replicate]
  split <;> simp

theorem sliceAny_replicate_false (L s e : Nat) :
    sliceAny (List.replicate L false) s e = false := by
  cases h : sliceAny (List.replicate L false) s e
  · rfl
  · rw [sliceAny_iff] at h
    obtain ⟨p, _, _, hp⟩ := h
    rw [getD_replicate_false] at hp
    exact absurd hp (by simp)

theorem dedupStep_inv {P : Type} {L : Nat} {st : List Bool × List (Extract P)}
    {e : Extract P} (hinv : DedupInv L st) (he : e.re_match.stop ≤ L) :
    DedupInv L (dedupStep st e) := by
  obtain ⟨hlen, hcov, hpw, hbd⟩ := hinv
  unfold dedupStep
  by_cases hany : sliceAny st.1 e.re_match.start e.re_match.stop = true
  · simp only [hany, if_true]
    exact ⟨hlen, hcov, hpw, hbd⟩
  · rw [Bool.not_eq_true] at hany
    simp only [hany, Bool.false_eq_true, if_false]
    have heL : e.re_match.stop ≤ st.1.length := by omega
    refine ⟨?_, ?_, ?_, ?_⟩
    · rw [length_sliceAssignTrue _ _ _ heL, hlen]
    · intro p
      rw [getD_sliceAssignTrue _ _ _ _ heL]
      constructor
      · intro h
        by_cases hc : e.re_match.start ≤ p ∧ p < e.re_match.stop
        · exact ⟨e, by simp, hc⟩
        · rw [if_neg hc] at h
          obtain ⟨a, ha, hap⟩ := (hcov p).mp h
          exact ⟨a, by simp [ha], hap⟩
      · rintro ⟨a, ha, hap⟩
        rcases List.mem_append.mp ha with ha | ha
        · have hgd := (hcov p).mpr ⟨a, ha, hap⟩
          split
          · rfl
          · exact hgd
        · have hae : a = e := by simpa using ha
          have hap' : e.re_match.start ≤ p ∧ p < e.re_match.stop := by
            rw [← hae]; exact hap
          rw [if_pos hap']
    · rw [List.pairwise_append]
      refine ⟨hpw, by simp, ?_⟩
      intro a ha b hb
      have hbe : b = e := by simpa using hb
      rintro ⟨p, hap, hbp⟩
      have hbp' : e.re_match.start ≤ p ∧ p < e.re_match.stop := by
        rw [← hbe]; exact hbp
      have hgd : st.1.getD p false = true := (hcov p).mpr ⟨a, ha, hap⟩
      have hcontra : sliceAny st.1 e.re_match.start e.re_match.stop = true :=
        (sliceAny_iff _ _ _).mpr ⟨p, hbp'.1, hbp'.2, hgd⟩
      rw [hany] at hcontra
      exact absurd hcontra (by simp)
    · intro a ha
      rcases List.mem_append.mp ha with ha | ha
      · exact hbd a ha
      · have : a = e := by simpa using ha
        subst this
        exact he

theorem dedupFold_inv {P : Type} {L : Nat} (l : List (Extract P)) :
    ∀ st : List Bool × List (Extract P), DedupInv L st →
      (∀ e ∈ l, e.re_match.stop ≤ L) → DedupInv L (l.foldl dedupStep st) := by
  induction l with
  | nil => intro st h _; simpa using h
  | cons e rest ih =>
    intro st h hb
    rw [List.foldl_cons]
    exact ih _ (dedupStep_inv h (hb e (by simp)))
      (fun e' he' => hb e' (by simp [he']))

theorem dedupInv_init {P : Type} (L : Nat) :
    DedupInv L ((List.replicate L false, []) : List Bool × List (Extract P)) := by
  refine ⟨by simp, ?_, by simp, by simp⟩
  intro p
  rw [getD_replicate_false]
  simp

/-! ## Claim C1 -/

/-- C1 counterexample: with the configuration `cexCfg` (one pattern
behaving like `[0-9:]+` whose callback copies the match span) and the input
`"12:00-17:30"`, `parse` returns three tags whose spans are
`(0,5)`, `(0,5)`, `(6,11)` — the tag synthesized by the abbreviation
expander reuses the span of the first tag, so the output spans are *not*
pairwise non-overlapping. -/
theorem parse_output_spans_overlap_cex :
    (parse cexCfg cexText).map (fun t => t.span) =
      [some (0, 5), some (0, 5), some (6, 11)] ∧
    ¬ List.Pairwise (fun a b : TIMEX Nat =>
        spanSharesIndex a.span b.span = false) (parse cexCfg cexText) := by
  constructor
  · decide
  · decide

/-- C1 (amended): the extracts retained by `_drop_duplicates` have pairwise
non-overlapping spans, for every input whose match spans lie inside the
text.  (Tags synthesized later by the abbreviation expander are outside
this guarantee: their spans may coincide with other tags' spans, as the
counterexample shows.) -/
theorem dedup_retained_spans_disjoint {P : Type} (extracts : List (Extract P))
    (text : Str) (hb : ∀ e ∈ extracts, e.re_match.stop ≤ text.length) :
    List.Pairwise ExtDisjoint (dropDupAccepted extracts text) := by
  unfold dropDupAccepted
  have hb' : ∀ e ∈ ordered_extracts extracts, e.re_match.stop ≤ text.length := by
    intro e he
    exact hb e ((List.mem_insertionSort _).mp he)
  exact (dedupFold_inv _ _ (dedupInv_init text.length) hb').2.2.1

/-- C1 amended-claim witness at a concrete instance. -/
theorem dedup_retained_spans_disjoint_witness :
    (∀ e ∈ [eSet, eAbs], e.re_match.stop ≤ (['1'] : Str).length) ∧
    List.Pairwise ExtDisjoint (dropDupAccepted [eSet, eAbs] ['1']) := by
  refine ⟨by decide, ?_⟩
  exact dedup_retained_spans_disjoint [eSet, eAbs] ['1'] (by decide)

/-! ## Claim C9 -/

/-- C9: with a custom tagger configured, a deduplication tie (same span
start, same match length) between a custom Extract and an abstime Extract
is broken by the ascending lexicographic comparison of the category names:
`"abstime" < "custom"`, so the abstime Extract sorts first and is retained
while the custom Extract is dropped — even though the custom extract comes
first in extraction order (first in the input list). -/
theorem custom_loses_tie_to_abstime {P : Type} (m : RawMatch) (p1 p2 : P)
    (text : Str) (h1 : m.start < m.stop) (h2 : m.stop ≤ text.length) :
    extractKeyLE (⟨"abstime", m, p2⟩ : Extract P) ⟨"custom", m, p1⟩ = true ∧
    extractKeyLE (⟨"custom", m, p1⟩ : Extract P) ⟨"abstime", m, p2⟩ = false ∧
    dropDupAccepted [⟨"custom", m, p1⟩, ⟨"abstime", m, p2⟩] text =
      [⟨"abstime", m, p2⟩] ∧
    drop_duplicates [⟨"custom", m, p1⟩, ⟨"abstime", m, p2⟩] text =
      [("abstime", [⟨"abstime", m, p2⟩])] := by
  have hkey1 : extractKeyLE (⟨"abstime", m, p2⟩ : Extract P) ⟨"custom", m, p1⟩ = true := by
    simp [extractKeyLE]
    decide
  have hkey2 : extractKeyLE (⟨"custom", m, p1⟩ : Extract P) ⟨"abstime", m, p2⟩ = false := by
    simp [extractKeyLE]
    decide
  have hsorted : ordered_extracts [⟨"custom", m, p1⟩, ⟨"abstime", m, p2⟩] =
      ([⟨"abstime", m, p2⟩, ⟨"custom", m, p1⟩] : List (Extract P)) := by
    unfold ordered_extracts
    simp [List.insertionSort, List.orderedInsert, hkey2]
  have haccept : dropDupAccepted [⟨"custom", m, p1⟩, ⟨"abstime", m, p2⟩] text =
      [⟨"abstime", m, p2⟩] := by
    unfold dropDupAccepted
    rw [hsorted]
    rw [List.foldl_cons, List.foldl_cons, List.foldl_nil]
    have hstep1 : dedupStep (List.replicate text.length false, [])
        (⟨"abstime", m, p2⟩ : Extract P) =
        (sliceAssignTrue (List.replicate text.length false) m.start m.stop,
          [⟨"abstime", m, p2⟩]) := by
      unfold dedupStep
      rw [sliceAny_replicate_false]
      simp
    rw [hstep1]
    unfold dedupStep
    have hany : sliceAny
        (sliceAssignTrue (List.replicate text.length false) m.start m.stop)
        m.start m.stop = true := by
      rw [sliceAny_iff]
      refine ⟨m.start, le_refl _, h1, ?_⟩
      rw [getD_sliceAssignTrue _ _ _ _ (by simp [h2])]
      rw [if_pos ⟨le_refl _, h1⟩]
    simp [hany]
  refine ⟨hkey1, hkey2, haccept, ?_⟩
  unfold drop_duplicates
  rw [haccept]
  simp [dictKeys]

/-- C9 witness: concrete instance with `m = (0, 1)` over the text `"1"`. -/
theorem custom_loses_tie_to_abstime_witness :
    (0 : Nat) < 1 ∧ (1 : Nat) ≤ (['1'] : Str).length ∧
    dropDupAccepted [⟨"custom", ⟨0, 1, ['1']⟩, dummyPat⟩,
        ⟨"abstime", ⟨0, 1, ['1']⟩, dummyPat⟩] ['1'] =
      [⟨"abstime", ⟨0, 1, ['1']⟩, dummyPat⟩] := by
  refine ⟨by decide, by decide, ?_⟩
  exact (custom_loses_tie_to_abstime ⟨0, 1, ['1']⟩ dummyPat dummyPat ['1']
    (by decide) (by decide)).2.2.1

theorem orderedInsert_congr {α : Type} (r1 r2 : α → α → Prop)
    [DecidableRel r1] [DecidableRel r2] (h : ∀ a b, r1 a b ↔ r2 a b) (a : α) :
    ∀ l, List.orderedInsert r1 a l = List.orderedInsert r2 a l := by
  intro l
  induction l with
  | nil => rfl
  | cons b t ih =>
    simp only [List.orderedInsert]
    by_cases hr : r1 a b
    · rw [if_pos hr, if_pos ((h a b).mp hr)]
    · rw [if_neg hr, if_neg (fun hc => hr ((h a b).mpr hc)), ih]

theorem insertionSort_congr {α : Type} (r1 r2 : α → α → Prop)
    [DecidableRel r1] [DecidableRel r2] (h : ∀ a b, r1 a b ↔ r2 a b) :
    ∀ l, List.insertionSort r1 l = List.insertionSort r2 l := by
  intro l
  induction l with
  | nil => rfl
  | cons a t ih =>
    simp only [List.insertionSort]
    rw [ih, orderedInsert_congr r1 r2 h]

theorem specExtractLE_iff_extractKeyLE {P : Type} (a b : Extract P) :
    specExtractLE a b ↔ extractKeyLE a b = true := by
  unfold specExtractLE extractKeyLE
  simp only [Bool.or_eq_true, Bool.and_eq_true, decide_eq_true_eq]
  rw [show (-(a.re_match.text.length : Int) < -(b.re_match.text.length : Int)) ↔
      b.re_match.text.length < a.re_match.text.length from by omega]
  rw [show (-(a.re_match.text.length : Int) = -(b.re_match.text.length : Int)) ↔
      a.re_match.text.length = b.re_match.text.length from by omega]

theorem sliceAny_eq_rangeCheck {flags : List Bool} {cover : Nat → Bool}
    (hpt : ∀ p, flags.getD p false = cover p) (s e : Nat) :
    sliceAny flags s e =
      !((List.range' s (e - s)).all (fun p => !(cover p))) := by
  rcases hall : (List.range' s (e - s)).all (fun p => !(cover p)) with hv | hv
  · rw [List.all_eq_false] at hall
    obtain ⟨p, hp, hcp⟩ := hall
    rw [List.mem_range'_1] at hp
    have hcov : cover p = true := by
      cases hc : cover p
      · rw [hc] at hcp; simp at hcp
      · rfl
    have : sliceAny flags s e = true := by
      rw [sliceAny_iff]
      exact ⟨p, hp.1, by omega, by rw [hpt p]; exact hcov⟩
    rw [this]
    rfl
  · cases hsa : sliceAny flags s e
    · rfl
    · exfalso
      rw [sliceAny_iff] at hsa
      obtain ⟨p, hsp, hpe, hgd⟩ := hsa
      rw [List.all_eq_true] at hall
      have hp : p ∈ List.range' s (e - s) := by
        rw [List.mem_range'_1]
        omega
      have := hall p hp
      rw [hpt p] at hgd
      rw [hgd] at this
      simp at this

theorem dedupFold_spec_rel {P : Type} {L : Nat} (l : List (Extract P)) :
    ∀ (stC : List Bool × List (Extract P))
      (stS : (Nat → Bool) × List (Extract P)),
      stC.1.length = L → (∀ p, stC.1.getD p false = stS.1 p) →
      stC.2 = stS.2 → (∀ e ∈ l, e.re_match.stop ≤ L) →
      (l.foldl dedupStep stC).2 = (l.foldl dedupSpecStep stS).2 := by
  induction l with
  | nil => intro stC stS _ _ h2 _; simpa using h2
  | cons e rest ih =>
    intro stC stS hlen hpt hacc hb
    rw [List.foldl_cons, List.foldl_cons]
    have heL : e.re_match.stop ≤ stC.1.length := by
      rw [hlen]; exact hb e (by simp)
    have hcheck := sliceAny_eq_rangeCheck hpt e.re_match.start e.re_match.stop
    rcases hall : (List.range' e.re_match.start
        (e.re_match.stop - e.re_match.start)).all (fun p => !(stS.1 p)) with hv | hv
    · have hsa : sliceAny stC.1 e.re_match.start e.re_match.stop = true := by
        rw [hcheck, hall]; rfl
      have hC : dedupStep stC e = stC := by
        unfold dedupStep; rw [hsa]; simp
      have hS : dedupSpecStep stS e = stS := by
        unfold dedupSpecStep; rw [hall]; simp
      rw [hC, hS]
      exact ih stC stS hlen hpt hacc (fun e' he' => hb e' (by simp [he']))
    · have hsa : sliceAny stC.1 e.re_match.start e.re_match.stop = false := by
        rw [hcheck, hall]; rfl
      have hC : dedupStep stC e =
          (sliceAssignTrue stC.1 e.re_match.start e.re_match.stop,
            stC.2 ++ [e]) := by
        unfold dedupStep; rw [hsa]; simp
      have hS : dedupSpecStep stS e =
          (fun p => if e.re_match.start ≤ p ∧ p < e.re_match.stop then true
              else stS.1 p,
            stS.2 ++ [e]) := by
        unfold dedupSpecStep; rw [hall]; simp
      rw [hC, hS]
      refine ih _ _ ?_ ?_ ?_ (fun e' he' => hb e' (by simp [he']))
      · rw [length_sliceAssignTrue _ _ _ heL, hlen]
      · intro p
        rw [getD_sliceAssignTrue _ _ _ _ heL]
        show _ = if e.re_match.start ≤ p ∧ p < e.re_match.stop then true
          else stS.1 p
        by_cases hc : e.re_match.start ≤ p ∧ p < e.re_match.stop
        · rw [if_pos hc, if_pos hc]
        · rw [if_neg hc, if_neg hc]
          exact hpt p
      · simp [hacc]

/-! ## Claim C2 -/

/-- C2 counterexample: the claim's tie-breaker (category compared
lexicographically *descending*) would retain the `set` extract on a tie;
the code compares ascending and retains the `abstime` extract.  On the
input list `[eSet, eAbs]` (both spanning `[0,1)` of the text `"1"`), the
code keeps `eAbs` while the claim's algorithm keeps `eSet`. -/
theorem dedup_descending_category_cex :
    dropDupAccepted [eSet, eAbs] ['1'] = [eAbs] ∧
    dedupClaimDescAccepted [eSet, eAbs] = [eSet] ∧
    ¬ dropDupAccepted [eSet, eAbs] ['1'] = dedupClaimDescAccepted [eSet, eAbs] := by
  refine ⟨by decide, by decide, by decide⟩

/-- C2 (amended): the deduplicator stable-sorts the surviving extracts by
the composite key (span start ascending, match length descending, category
name ascending — so ties resolve `abstime < custom < duration < reltime <
set`), then scans in that order retaining an extract iff every index of its
span is uncovered, marking accepted spans covered; the retained extracts
are returned bucketed by category in first-acceptance order. -/
theorem dedup_sort_and_coverage {P : Type} (extracts : List (Extract P))
    (text : Str) (hb : ∀ e ∈ extracts, e.re_match.stop ≤ text.length) :
    dropDupAccepted extracts text = dedupSpecAccepted extracts ∧
    drop_duplicates extracts text =
      (dictKeys (dedupSpecAccepted extracts)).map
        (fun k => (k, (dedupSpecAccepted extracts).filter (·.type_name = k))) := by
  have hmain : dropDupAccepted extracts text = dedupSpecAccepted extracts := by
    unfold dropDupAccepted dedupSpecAccepted ordered_extracts
    rw [insertionSort_congr (fun a b : Extract P => extractKeyLE a b = true)
      specExtractLE (fun a b => (specExtractLE_iff_extractKeyLE a b).symm)]
    have hlen0 : (List.replicate text.length false, ([] : List (Extract P))).1.length =
        text.length := by simp
    refine dedupFold_spec_rel _ _ _ hlen0 ?_ rfl ?_
    · intro p
      rw [getD_replicate_false]
    · intro e he
      exact hb e ((List.mem_insertionSort _).mp he)
  refine ⟨hmain, ?_⟩
  unfold drop_duplicates
  rw [hmain]

/-- C2 amended-claim witness at a concrete instance. -/
theorem dedup_sort_and_coverage_witness :
    (∀ e ∈ [eSet, eAbs], e.re_match.stop ≤ (['1'] : Str).length) ∧
    dropDupAccepted [eSet, eAbs] ['1'] = dedupSpecAccepted [eSet, eAbs] := by
  refine ⟨by decide, ?_⟩
  exact (dedup_sort_and_coverage [eSet, eAbs] ['1'] (by decide)).1

theorem tagSortKey_sorted_insertionSort {P : Type} (tags : List (TIMEX P)) :
    (List.insertionSort
        (fun a b : TIMEX P => tagSortKey a ≤ tagSortKey b) tags).Sorted
      (fun a b : TIMEX P => tagSortKey a ≤ tagSortKey b) := by
  haveI : IsTotal (TIMEX P) (fun a b : TIMEX P => tagSortKey a ≤ tagSortKey b) :=
    ⟨fun a b => Nat.le_total _ _⟩
  haveI : IsTrans (TIMEX P) (fun a b : TIMEX P => tagSortKey a ≤ tagSortKey b) :=
    ⟨fun _ _ _ => Nat.le_trans⟩
  exact List.sorted_insertionSort _ tags

/-! ## Claim C5 -/

theorem finalizeTag_tid {P : Type} (cfg : Config P) (i : Nat) (a : TIMEX P) :
    (finalizeTag cfg i a).tid = some ("t" ++ toString i) := by
  unfold finalizeTag
  cases cfg.reference <;> rfl

theorem finalizeTag_tagSortKey {P : Type} (cfg : Config P) (i : Nat)
    (a : TIMEX P) : tagSortKey (finalizeTag cfg i a) = tagSortKey a := by
  unfold finalizeTag
  cases cfg.reference <;> rfl

theorem finalizeTag_clearTidRef {P : Type} (cfg : Config P) (i : Nat)
    (a : TIMEX P) : clearTidRef (finalizeTag cfg i a) = clearTidRef a := by
  unfold finalizeTag clearTidRef
  cases cfg.reference <;> rfl

theorem finalizer_form {P : Type} (cfg : Config P) (tags : List (TIMEX P))
    (i : Nat) (t : TIMEX P)
    (ht : (modify_additional_information cfg tags)[i]? = some t) :
    ∃ a, (List.insertionSort
        (fun a b : TIMEX P => tagSortKey a ≤ tagSortKey b) tags)[i]? = some a ∧
      t = finalizeTag cfg i a := by
  unfold modify_additional_information at ht
  rw [List.getElem?_map, List.getElem?_enum] at ht
  cases ha : (List.insertionSort
      (fun a b : TIMEX P => tagSortKey a ≤ tagSortKey b) tags)[i]? with
  | none => rw [ha] at ht; simp at ht
  | some a =>
    rw [ha] at ht
    simp only [Option.map_map, Option.map_some] at ht
    exact ⟨a, rfl, by simpa using ht.symm⟩

/-- C5: the finalizer's output has the same number of tags as its input;
the tag at position `i` carries `tid = "t" + i` (so the tids form the
contiguous sequence `t0..tN-1`); the output is ordered by ascending sort
key (span start, with spanless tags keyed 0); when a reference is
configured it is attached to every tag; and apart from `tid`/`reference`
rewriting, the output is a permutation of the input. -/
theorem finalizer_tid_sort_reference {P : Type} (cfg : Config P)
    (tags : List (TIMEX P)) :
    (modify_additional_information cfg tags).length = tags.length ∧
    (∀ (i : Nat) (t : TIMEX P),
      (modify_additional_information cfg tags)[i]? = some t →
      t.tid = some ("t" ++ toString i)) ∧
    (∀ (i j : Nat) (ti tj : TIMEX P), i < j →
      (modify_additional_information cfg tags)[i]? = some ti →
      (modify_additional_information cfg tags)[j]? = some tj →
      tagSortKey ti ≤ tagSortKey tj) ∧
    (∀ r, cfg.reference = some r → ∀ (i : Nat) (t : TIMEX P),
      (modify_additional_information cfg tags)[i]? = some t →
      t.reference = some r) ∧
    List.Perm ((modify_additional_information cfg tags).map clearTidRef)
      (tags.map clearTidRef) := by
  refine ⟨?_, ?_, ?_, ?_, ?_⟩
  · unfold modify_additional_information
    rw [List.length_map, List.enum_length, List.length_insertionSort]
  · intro i t ht
    obtain ⟨a, _, hfa⟩ := finalizer_form cfg tags i t ht
    rw [hfa, finalizeTag_tid]
  · intro i j ti tj hij hti htj
    obtain ⟨a, ha, hfa⟩ := finalizer_form cfg tags i ti hti
    obtain ⟨b, hb, hfb⟩ := finalizer_form cfg tags j tj htj
    rw [hfa, hfb, finalizeTag_tagSortKey, finalizeTag_tagSortKey]
    have hsorted := tagSortKey_sorted_insertionSort (P := P) tags
    have hpw := List.pairwise_iff_getElem.mp hsorted
    obtain ⟨hia, ha2⟩ := List.getElem?_eq_some.mp ha
    obtain ⟨hjb, hb2⟩ := List.getElem?_eq_some.mp hb
    have := hpw i j hia hjb hij
    rw [ha2, hb2] at this
    exact this
  · intro r href i t ht
    obtain ⟨a, _, hfa⟩ := finalizer_form cfg tags i t ht
    rw [hfa]
    unfold finalizeTag
    rw [href]
  · have hmap : (modify_additional_information cfg tags).map clearTidRef =
        (List.insertionSort
          (fun a b : TIMEX P => tagSortKey a ≤ tagSortKey b) tags).map
            clearTidRef := by
      unfold modify_additional_information
      rw [List.map_map]
      have hfun : (clearTidRef ∘ fun it : Nat × TIMEX P =>
          finalizeTag cfg it.1 it.2) = clearTidRef ∘ Prod.snd := by
        funext it
        exact finalizeTag_clearTidRef cfg it.1 it.2
      rw [hfun, ← List.map_map, List.enum_map_snd]
    rw [hmap]
    exact (List.perm_insertionSort _ tags).map clearTidRef

/-- C5 witness: concretely, with a configured reference `7` and the
two-tag list `wtTags`, the finalizer assigns `t0`, `t1` and attaches the
reference. -/
theorem finalizer_tid_sort_reference_witness :
    refCfg.reference = some 7 ∧
    (∀ (i : Nat) (t : TIMEX Nat),
      (modify_additional_information refCfg wtTags)[i]? = some t →
      t.reference = some 7) := by
  refine ⟨rfl, ?_⟩
  exact (finalizer_tid_sort_reference refCfg wtTags).2.2.2.1 7 rfl

@[simp] theorem withFlags_span {P : Type} (t : TIMEX P) (rs re : Bool) :
    (withFlags t rs re).span = t.span := rfl

@[simp] theorem withFlags_type {P : Type} (t : TIMEX P) (rs re : Bool) :
    (withFlags t rs re).type = t.type := rfl

@[simp] theorem withFlags_range_start {P : Type} (t : TIMEX P) (rs re : Bool) :
    (withFlags t rs re).range_start = rs := rfl

@[simp] theorem withFlags_range_end {P : Type} (t : TIMEX P) (rs re : Bool) :
    (withFlags t rs re).range_end = re := rfl

@[simp] theorem withFlags_self {P : Type} (t : TIMEX P) :
    withFlags t t.range_start t.range_end = t := rfl

theorem markedStartUpToB_succ {P : Type} (tags : List (TIMEX P)) (text : Str)
    (k j : Nat) :
    markedStartUpToB tags text (k + 1) j =
      (markedStartUpToB tags text k j ||
        decide (rangePred tags text k = some j)) := by
  unfold markedStartUpToB
  rw [List.range_succ, List.any_append]
  simp

theorem index2timexI_fold_covers {P : Type} (pos : Int)
    (l : List (Nat × TIMEX P)) :
    ∀ (acc : Option Nat) (j : Nat),
      (l.foldl
        (fun acc it =>
          match it.2.span with
          | some (s, e) =>
            if (s : Int) ≤ pos ∧ pos < (e : Int) then some it.1 else acc
          | none => acc) acc) = some j →
      acc = some j ∨ ∃ t s e, (j, t) ∈ l ∧ t.span = some (s, e) ∧
        (s : Int) ≤ pos ∧ pos < (e : Int) := by
  induction l with
  | nil => intro acc j h; exact Or.inl (by simpa using h)
  | cons it rest ih =>
    intro acc j h
    rw [List.foldl_cons] at h
    rcases hspan : it.2.span with _ | se
    · rw [hspan] at h
      rcases ih _ _ h with h' | ⟨t, s, e, hmem, hsp, hle, hlt⟩
      · exact Or.inl h'
      · exact Or.inr ⟨t, s, e, by simp [hmem], hsp, hle, hlt⟩
    · obtain ⟨s1, e1⟩ := se
      rw [hspan] at h
      simp only at h
      by_cases hc : (s1 : Int) ≤ pos ∧ pos < (e1 : Int)
      · rw [if_pos hc] at h
        rcases ih _ _ h with h' | ⟨t, s, e, hmem, hsp, hle, hlt⟩
        · have hj : it.1 = j := by simpa using h'
          refine Or.inr ⟨it.2, s1, e1, ?_, ?_, hc.1, hc.2⟩
          · rw [← hj]
            simp
          · rw [hspan]
        · exact Or.inr ⟨t, s, e, by simp [hmem], hsp, hle, hlt⟩
      · rw [if_neg hc] at h
        rcases ih _ _ h with h' | ⟨t, s, e, hmem, hsp, hle, hlt⟩
        · exact Or.inl h'
        · exact Or.inr ⟨t, s, e, by simp [hmem], hsp, hle, hlt⟩

theorem index2timexI_covers {P : Type} (tags : List (TIMEX P)) (pos : Int)
    (j : Nat) (h : index2timexI tags pos = some j) :
    ∃ t s e, tags[j]? = some t ∧ t.span = some (s, e) ∧
      (s : Int) ≤ pos ∧ pos < (e : Int) := by
  unfold index2timexI at h
  rcases index2timexI_fold_covers pos tags.enum none j h with h' | ⟨t, s, e, hmem, hsp, hle, hlt⟩
  · exact absurd h' (by simp)
  · have : tags[j]? = some t := List.mem_enum_iff_getElem?.mp hmem
    exact ⟨t, s, e, this, hsp, hle, hlt⟩

theorem rangePred_some_spec {P : Type} (tags : List (TIMEX P)) (text : Str)
    (k j : Nat) (h : rangePred tags text k = some j) :
    ∃ (t : TIMEX P) (s e : Nat) (r : Str) (st : TIMEX P) (s2 e2 : Nat),
      tags[k]? = some t ∧ t.span = some (s, e) ∧ ¬ t.type = "DURATION" ∧
      detect_range_expression_before_timex s text defaultRangeExpressions =
        some r ∧
      index2timexI tags ((s : Int) - r.length - 1) = some j ∧
      tags[j]? = some st ∧ st.type = t.type ∧ st.span = some (s2, e2) ∧
      s2 < s ∧ j ≠ k := by
  unfold rangePred at h
  rcases h1 : tags[k]? with _ | t
  · rw [h1] at h; exact absurd h (by simp)
  rw [h1] at h
  simp only at h
  rcases h2 : t.span with _ | se
  · rw [h2] at h; exact absurd h (by simp)
  obtain ⟨s, e⟩ := se
  rw [h2] at h
  simp only at h
  by_cases h3 : t.type = "DURATION"
  · rw [if_pos h3] at h; exact absurd h (by simp)
  rw [if_neg h3] at h
  rcases h4 : detect_range_expression_before_timex s text
      defaultRangeExpressions with _ | r
  · rw [h4] at h; exact absurd h (by simp)
  rw [h4] at h
  simp only at h
  rcases h5 : index2timexI tags ((s : Int) - r.length - 1) with _ | j'
  · rw [h5] at h; exact absurd h (by simp)
  rw [h5] at h
  simp only at h
  rcases h6 : tags[j']? with _ | st
  · rw [h6] at h; exact absurd h (by simp)
  rw [h6] at h
  simp only at h
  by_cases h7 : st.type = t.type
  · rw [if_pos h7] at h
    have hj : j' = j := by simpa using h
    subst hj
    obtain ⟨st2, s2, e2, hst2, hsp2, hle2, hlt2⟩ :=
      index2timexI_covers tags ((s : Int) - r.length - 1) j' h5
    have hsame : st = st2 := by
      rw [h6] at hst2
      simpa using hst2
    rw [← hsame] at hsp2
    clear hst2
    have hs2s : s2 < s := by omega
    have hne : j' ≠ k := by
      intro heq
      rw [heq, h1] at h6
      have hts : t = st := by simpa using h6
      rw [← hts, h2] at hsp2
      have hss : s = s2 ∧ e = e2 := by simpa using hsp2
      omega
    exact ⟨t, s, e, r, st, s2, e2, rfl, h2, h3, h4, h5, h6, h7, hsp2, hs2s, hne⟩
  · rw [if_neg h7] at h
    exact absurd h (by simp)

@[simp] theorem withFlags_set_start {P : Type} (t : TIMEX P) (a b c : Bool) :
    { withFlags t a b with range_start := c } = withFlags t c b := rfl

@[simp] theorem withFlags_set_end {P : Type} (t : TIMEX P) (a b c : Bool) :
    { withFlags t a b with range_end := c } = withFlags t a c := rfl

theorem rengeInv_zero {P : Type} (tags : List (TIMEX P)) (text : Str) :
    RengeInv tags text 0 tags := by
  refine ⟨rfl, ?_⟩
  intro i t h
  rw [h]
  simp [markedStartUpToB]

theorem rengeInv_succ_of_none {P : Type} {tags : List (TIMEX P)} {text : Str}
    {k : Nat} {acc : List (TIMEX P)} (hInv : RengeInv tags text k acc)
    (hpred : rangePred tags text k = none) :
    RengeInv tags text (k + 1) acc := by
  obtain ⟨hlen, hptr⟩ := hInv
  refine ⟨hlen, ?_⟩
  intro i t h
  have h1 : markedStartUpToB tags text (k + 1) i =
      markedStartUpToB tags text k i := by
    rw [markedStartUpToB_succ, hpred]
    simp
  rw [h1]
  by_cases hik : i = k
  · subst hik
    have h2 : markedEndB tags text i = false := by
      unfold markedEndB
      rw [hpred]
      rfl
    rw [h2]
    have := hptr i t h
    rw [h2] at this
    exact this
  · have h2 : decide (i < k + 1) = decide (i < k) :=
      decide_eq_decide.mpr ⟨fun hh => by omega, fun hh => by omega⟩
    rw [h2]
    exact hptr i t h

theorem rengeInv_step {P : Type} (tags : List (TIMEX P)) (text : Str) (k : Nat)
    (acc : List (TIMEX P)) (hInv : RengeInv tags text k acc) :
    RengeInv tags text (k + 1) (rangeMarkStep tags text acc k) := by
  obtain ⟨hlen, hptr⟩ := hInv
  rcases hk : tags[k]? with _ | t
  · have hklen : tags.length ≤ k := by
      by_contra hcon
      push_neg at hcon
      rw [List.getElem?_eq_getElem hcon] at hk
      exact absurd hk (by simp)
    have hkacc : acc[k]? = none := List.getElem?_eq_none (by omega)
    have hstep : rangeMarkStep tags text acc k = acc := by
      unfold rangeMarkStep
      rw [hkacc]
    have hpred : rangePred tags text k = none := by
      unfold rangePred
      rw [hk]
    rw [hstep]
    exact rengeInv_succ_of_none ⟨hlen, hptr⟩ hpred
  · have hacck := hptr k t hk
    rcases hspan : t.span with _ | se
    · have hstep : rangeMarkStep tags text acc k = acc := by
        unfold rangeMarkStep
        rw [hacck]
        simp [hspan]
      have hpred : rangePred tags text k = none := by
        unfold rangePred
        rw [hk]
        simp [hspan]
      rw [hstep]
      exact rengeInv_succ_of_none ⟨hlen, hptr⟩ hpred
    · obtain ⟨s, e⟩ := se
      by_cases htyp : t.type = "DURATION"
      · have hstep : rangeMarkStep tags text acc k = acc := by
          unfold rangeMarkStep
          rw [hacck]
          simp [hspan, htyp]
        have hpred : rangePred tags text k = none := by
          unfold rangePred
          rw [hk]
          simp [hspan, htyp]
        rw [hstep]
        exact rengeInv_succ_of_none ⟨hlen, hptr⟩ hpred
      · rcases hdet : detect_range_expression_before_timex s text
            defaultRangeExpressions with _ | r
        · have hstep : rangeMarkStep tags text acc k = acc := by
            unfold rangeMarkStep
            rw [hacck]
            simp [hspan, htyp, hdet]
          have hpred : rangePred tags text k = none := by
            unfold rangePred
            rw [hk]
            simp [hspan, htyp, hdet]
          rw [hstep]
          exact rengeInv_succ_of_none ⟨hlen, hptr⟩ hpred
        · rcases hidx : index2timexI tags ((s : Int) - r.length - 1) with _ | j
          · have hstep : rangeMarkStep tags text acc k = acc := by
              unfold rangeMarkStep
              rw [hacck]
              simp [hspan, htyp, hdet, hidx]
            have hpred : rangePred tags text k = none := by
              unfold rangePred
              rw [hk]
              simp [hspan, htyp, hdet, hidx]
            rw [hstep]
            exact rengeInv_succ_of_none ⟨hlen, hptr⟩ hpred
          · rcases hj : tags[j]? with _ | st
            · have hjlen : tags.length ≤ j := by
                by_contra hcon
                push_neg at hcon
                rw [List.getElem?_eq_getElem hcon] at hj
                exact absurd hj (by simp)
              have hjacc : acc[j]? = none := List.getElem?_eq_none (by omega)
              have hstep : rangeMarkStep tags text acc k = acc := by
                unfold rangeMarkStep
                rw [hacck]
                simp [hspan, htyp, hdet, hidx, hjacc]
              have hpred : rangePred tags text k = none := by
                unfold rangePred
                rw [hk]
                simp [hspan, htyp, hdet, hidx, hj]
              rw [hstep]
              exact rengeInv_succ_of_none ⟨hlen, hptr⟩ hpred
            · have haccj := hptr j st hj
              by_cases hty : st.type = t.type
              · -- the marking branch
                have hpred : rangePred tags text k = some j := by
                  unfold rangePred
                  rw [hk]
                  simp [hspan, htyp, hdet, hidx, hj, hty]
                obtain ⟨t0, s0, e0, r0, st0, s2, e2, _, _, _, _, _, _, _, _,
                  _, hne⟩ := rangePred_some_spec tags text k j hpred
                have hkd : k < tags.length := (List.getElem?_eq_some.mp hk).1
                have hjd : j < tags.length := (List.getElem?_eq_some.mp hj).1
                have hstep : rangeMarkStep tags text acc k =
                    (acc.set j (withFlags st true (st.range_end ||
                      (markedEndB tags text j && decide (j < k))))).set k
                      (withFlags t (t.range_start || markedStartUpToB tags text k k)
                        true) := by
                  simp only [rangeMarkStep, hacck, withFlags_span, withFlags_type,
                    hspan, hdet, hidx, haccj, List.getElem?_set]
                  rw [if_neg htyp, if_pos hty, if_neg hne]
                  rfl
                rw [hstep]
                refine ⟨by simp [hlen], ?_⟩
                intro i t2 h2
                rw [List.getElem?_set, List.getElem?_set]
                by_cases hik : k = i
                · have ht2 : t2 = t := by
                    rw [← hik, hk] at h2
                    simpa using h2.symm
                  subst ht2
                  rw [if_pos hik]
                  have hklt : k < (acc.set j (withFlags st true (st.range_end ||
                      (markedEndB tags text j && decide (j < k))))).length := by
                    simp [hlen]
                    omega
                  rw [if_pos hklt, ← hik]
                  rw [markedStartUpToB_succ, hpred]
                  have hme : markedEndB tags text k = true := by
                    unfold markedEndB
                    rw [hpred]
                    rfl
                  rw [hme]
                  simp [hne]
                · rw [if_neg hik]
                  by_cases hij : j = i
                  · have ht2 : t2 = st := by
                      rw [← hij, hj] at h2
                      simpa using h2.symm
                    subst ht2
                    rw [if_pos hij]
                    have hjlt : j < acc.length := by omega
                    rw [if_pos hjlt, ← hij]
                    rw [markedStartUpToB_succ, hpred]
                    have hdec : decide (j < k + 1) = decide (j < k) :=
                      decide_eq_decide.mpr ⟨fun hh => by omega, fun hh => by omega⟩
                    rw [hdec]
                    simp
                  · rw [if_neg hij]
                    have hbase := hptr i t2 h2
                    rw [hbase]
                    rw [markedStartUpToB_succ, hpred]
                    have hdec : decide (i < k + 1) = decide (i < k) :=
                      decide_eq_decide.mpr ⟨fun hh => by omega, fun hh => by omega⟩
                    rw [hdec]
                    simp [hij]
              · have hstep : rangeMarkStep tags text acc k = acc := by
                  simp only [rangeMarkStep, hacck, withFlags_span, withFlags_type,
                    hspan, hdet, hidx, haccj]
                  rw [if_neg htyp, if_neg hty]
                have hpred : rangePred tags text k = none := by
                  unfold rangePred
                  rw [hk]
                  simp [hspan, htyp, hdet, hidx, hj, hty]
                rw [hstep]
                exact rengeInv_succ_of_none ⟨hlen, hptr⟩ hpred

theorem modify_renge_inv {P : Type} (tags : List (TIMEX P)) (text : Str) :
    RengeInv tags text tags.length (modify_renge_start_and_end tags text) := by
  unfold modify_renge_start_and_end
  suffices h : ∀ k, RengeInv tags text k
      ((List.range k).foldl (rangeMarkStep tags text) tags) from h tags.length
  intro k
  induction k with
  | zero => simpa using rengeInv_zero tags text
  | succ k ih =>
    rw [List.range_succ, List.foldl_append, List.foldl_cons, List.foldl_nil]
    exact rengeInv_step tags text k _ ih

theorem modify_renge_get {P : Type} (tags : List (TIMEX P)) (text : Str) :
    (modify_renge_start_and_end tags text).length = tags.length ∧
    ∀ (i : Nat) (t : TIMEX P), tags[i]? = some t →
      (modify_renge_start_and_end tags text)[i]? =
        some (withFlags t (t.range_start || markedStartB tags text i)
          (t.range_end || markedEndB tags text i)) := by
  obtain ⟨hlen, hptr⟩ := modify_renge_inv tags text
  refine ⟨hlen, ?_⟩
  intro i t h
  have hi : i < tags.length := (List.getElem?_eq_some.mp h).1
  have := hptr i t h
  rw [show decide (i < tags.length) = true from by simpa using hi] at this
  rw [Bool.and_true] at this
  exact this

theorem rangePred_eq_some_of {P : Type} (tags : List (TIMEX P)) (text : Str)
    (i j s e : Nat) (r : Str) (t st : TIMEX P)
    (h1 : tags[i]? = some t) (h2 : t.span = some (s, e))
    (h3 : ¬ t.type = "DURATION")
    (h4 : detect_range_expression_before_timex s text defaultRangeExpressions =
      some r)
    (h5 : index2timexI tags ((s : Int) - r.length - 1) = some j)
    (h6 : tags[j]? = some st) (h7 : st.type = t.type) :
    rangePred tags text i = some j := by
  simp only [rangePred, h1, h2, h4, h5, h6]
  rw [if_neg h3, if_pos h7]

/-! ## Claim C3 -/

/-- C3: starting from tags whose range flags are all clear, the range
annotator gives a tag `range_end` *iff* the tag has a span, is not a
DURATION, a recognized range token immediately precedes its span, the
position `span[0] - len(token) - 1` belongs to some tag `S`, and `S` has
the same type; and it gives a tag `range_start` *iff* it is the predecessor
`S` found this way for some tag.  In every other situation the annotator
leaves both flags unset. -/
theorem range_annotator_marks_iff {P : Type} (tags : List (TIMEX P))
    (text : Str)
    (hflags : ∀ t ∈ tags, t.range_start = false ∧ t.range_end = false) :
    (modify_renge_start_and_end tags text).length = tags.length ∧
    ∀ (i : Nat) (t t' : TIMEX P), tags[i]? = some t →
      (modify_renge_start_and_end tags text)[i]? = some t' →
      ((t'.range_end = true ↔
        (∃ (s e : Nat) (r : Str) (j : Nat) (st : TIMEX P),
          t.span = some (s, e) ∧ ¬ t.type = "DURATION" ∧
          detect_range_expression_before_timex s text
            defaultRangeExpressions = some r ∧
          index2timexI tags ((s : Int) - r.length - 1) = some j ∧
          tags[j]? = some st ∧ st.type = t.type)) ∧
       (t'.range_start = true ↔ (∃ k, rangePred tags text k = some i))) := by
  obtain ⟨hlen, hptr⟩ := modify_renge_get tags text
  refine ⟨hlen, ?_⟩
  intro i t t' ht ht'
  have hmem : t ∈ tags := by
    obtain ⟨hi, hg⟩ := List.getElem?_eq_some.mp ht
    exact hg ▸ List.getElem_mem hi
  obtain ⟨hrs0, hre0⟩ := hflags t hmem
  have hform := hptr i t ht
  rw [ht'] at hform
  have ht'eq : t' = withFlags t (t.range_start || markedStartB tags text i)
      (t.range_end || markedEndB tags text i) := by simpa using hform
  rw [ht'eq, hrs0, hre0]
  simp only [withFlags_range_start, withFlags_range_end, Bool.false_or]
  constructor
  · constructor
    · intro hme
      unfold markedEndB at hme
      rcases hpred : rangePred tags text i with _ | j
      · rw [hpred] at hme; exact absurd hme (by simp)
      · obtain ⟨t0, s, e, r, st, s2, e2, hk0, hsp, htyp, hdet, hidx, hj, hty,
          _, _, _⟩ := rangePred_some_spec tags text i j hpred
        have ht0 : t0 = t := by rw [ht] at hk0; simpa using hk0.symm
        subst ht0
        exact ⟨s, e, r, j, st, hsp, htyp, hdet, hidx, hj, hty⟩
    · rintro ⟨s, e, r, j, st, hsp, htyp, hdet, hidx, hj, hty⟩
      have := rangePred_eq_some_of tags text i j s e r t st ht hsp htyp hdet
        hidx hj hty
      unfold markedEndB
      rw [this]
      rfl
  · constructor
    · intro hms
      unfold markedStartB markedStartUpToB at hms
      rw [List.any_eq_true] at hms
      obtain ⟨k, _, hk⟩ := hms
      exact ⟨k, of_decide_eq_true hk⟩
    · rintro ⟨k, hk⟩
      have hklen : k < tags.length :=
        (List.getElem?_eq_some.mp
          (rangePred_some_spec tags text k i hk).choose_spec.choose_spec.choose_spec.choose_spec.choose_spec.choose_spec.choose_spec.1).1
      unfold markedStartB markedStartUpToB
      rw [List.any_eq_true]
      exact ⟨k, by simp [hklen], by simp [hk]⟩

/-- C3 witness: on `wtTags` (two DATE tags over `"1d-2d"`, all flags
clear), the characterization applies; concretely the annotator marks tag 0
`range_start` and tag 1 `range_end`. -/
theorem range_annotator_marks_iff_witness :
    (∀ t ∈ wtTags, t.range_start = false ∧ t.range_end = false) ∧
    ((modify_renge_start_and_end wtTags wtText).length = wtTags.length ∧
     ∀ (i : Nat) (t t' : TIMEX Nat), wtTags[i]? = some t →
      (modify_renge_start_and_end wtTags wtText)[i]? = some t' →
      ((t'.range_end = true ↔
        (∃ (s e : Nat) (r : Str) (j : Nat) (st : TIMEX Nat),
          t.span = some (s, e) ∧ ¬ t.type = "DURATION" ∧
          detect_range_expression_before_timex s wtText
            defaultRangeExpressions = some r ∧
          index2timexI wtTags ((s : Int) - r.length - 1) = some j ∧
          wtTags[j]? = some st ∧ st.type = t.type)) ∧
       (t'.range_start = true ↔ (∃ k, rangePred wtTags wtText k = some i)))) ∧
    (modify_renge_start_and_end wtTags wtText).map
      (fun t => (t.range_start, t.range_end)) =
      [(true, false), (false, true)] := by
  refine ⟨by decide, range_annotator_marks_iff wtTags wtText (by decide), ?_⟩
  decide

theorem parseStage_flags_false {P : Type} (cfg : Config P)
    (hpf : ∀ (p : P) (m : RawMatch), (cfg.parseOf p m).range_start = false ∧
      (cfg.parseOf p m).range_end = false)
    (groups : List (String × List (Extract P))) :
    ∀ t ∈ parseStage cfg groups, t.range_start = false ∧ t.range_end = false := by
  unfold parseStage
  suffices h : ∀ (acc : List (TIMEX P)),
      (∀ t ∈ acc, t.range_start = false ∧ t.range_end = false) →
      ∀ t ∈ groups.foldl
        (fun acc kv =>
          if kv.1 = "abstime" ∨ kv.1 = "duration" ∨ kv.1 = "reltime" ∨
              kv.1 = "set" ∨ kv.1 = "custom" then
            acc ++ kv.2.map (fun e => cfg.parseOf e.pattern e.re_match)
          else acc) acc,
        t.range_start = false ∧ t.range_end = false by
    exact h [] (by simp)
  induction groups with
  | nil => intro acc hacc; simpa using hacc
  | cons kv rest ih =>
    intro acc hacc
    rw [List.foldl_cons]
    apply ih
    split
    · intro t ht
      rcases List.mem_append.mp ht with ht | ht
      · exact hacc t ht
      · obtain ⟨e, _, he⟩ := List.mem_map.mp ht
        rw [← he]
        exact hpf e.pattern e.re_match
    · exact hacc

theorem modify_renge_good {P : Type} (tags : List (TIMEX P)) (text : Str)
    (hflags : ∀ t ∈ tags, t.range_start = false ∧ t.range_end = false) :
    GoodRangeList (modify_renge_start_and_end tags text) := by
  obtain ⟨hlen, hptr⟩ := modify_renge_get tags text
  intro j tj hj hre
  have hjlen : j < tags.length := by
    have := (List.getElem?_eq_some.mp hj).1
    omega
  have htj0 : tags[j]? = some tags[j] := List.getElem?_eq_getElem hjlen
  have hform := hptr j tags[j] htj0
  rw [hj] at hform
  have htjeq : tj = withFlags tags[j]
      (tags[j].range_start || markedStartB tags text j)
      (tags[j].range_end || markedEndB tags text j) := by simpa using hform
  obtain ⟨hrs0, hre0⟩ := hflags tags[j] (List.getElem_mem hjlen)
  have hme : markedEndB tags text j = true := by
    rw [htjeq] at hre
    rw [withFlags_range_end, hre0, Bool.false_or] at hre
    exact hre
  unfold markedEndB at hme
  rcases hpred : rangePred tags text j with _ | i
  · rw [hpred] at hme; exact absurd hme (by simp)
  obtain ⟨t0, s, e, r, st, s2, e2, hk0, hsp, _, _, _, hi, hty, hsp2, hs2s, _⟩ :=
    rangePred_some_spec tags text j i hpred
  have ht0 : t0 = tags[j] := by rw [htj0] at hk0; simpa using hk0.symm
  subst ht0
  have hilen : i < tags.length := (List.getElem?_eq_some.mp hi).1
  have hout_i := hptr i st hi
  have hms : markedStartB tags text i = true := by
    unfold markedStartB markedStartUpToB
    rw [List.any_eq_true]
    exact ⟨j, by simp [hjlen], by simp [hpred]⟩
  obtain ⟨hsti_rs, _⟩ := hflags st (by
    obtain ⟨hl, hg⟩ := List.getElem?_eq_some.mp hi
    exact hg ▸ List.getElem_mem hl)
  refine ⟨i, withFlags st (st.range_start || markedStartB tags text i)
      (st.range_end || markedEndB tags text i), s2, e2, s, e, hout_i, ?_, ?_, ?_, ?_, ?_⟩
  · rw [withFlags_range_start, hsti_rs, Bool.false_or, hms]
  · rw [withFlags_type, htjeq, withFlags_type, hty]
  · rw [withFlags_span, hsp2]
  · rw [htjeq, withFlags_span, hsp]
  · exact hs2s

theorem abbrevSynth_from_parse {P : Type} (cfg : Config P) (text : Str)
    (a x : TIMEX P) (h : abbrevSynth cfg text a = some x) :
    ∃ (p : P) (m : RawMatch),
      x.range_start = (cfg.parseOf p m).range_start ∧
      x.range_end = (cfg.parseOf p m).range_end := by
  unfold abbrevSynth at h
  rcases h1 : a.span with _ | se
  · rw [h1] at h; exact absurd h (by simp)
  obtain ⟨s, e⟩ := se
  rw [h1] at h
  simp only at h
  rcases h2 : detect_range_expression_before_timex s text
      abbrevRangeExpressions with _ | r
  · rw [h2] at h; exact absurd h (by simp)
  rw [h2] at h
  simp only at h
  rcases h3 : trailingNumRun (text.take (s - r.length)) with _ | m_num
  · rw [h3] at h; exact absurd h (by simp)
  rw [h3] at h
  simp only at h
  rcases h4 : numSuffixSearch a.text with _ | g12
  · rw [h4] at h; exact absurd h (by simp)
  rw [h4] at h
  simp only at h
  rcases h5 : a.pattern with _ | p
  · rw [h5] at h; exact absurd h (by simp)
  rw [h5] at h
  simp only at h
  rcases h6 : cfg.fullmatchOf p (m_num.text ++ g12.2) with _ | m
  · rw [h6] at h; exact absurd h (by simp)
  rw [h6] at h
  simp only at h
  have hxe := Option.some.inj h
  exact ⟨p, m, by rw [← hxe], by rw [← hxe]⟩

theorem abbrev_preserves_good {P : Type} (cfg : Config P) (text : Str)
    (tags : List (TIMEX P))
    (hpf : ∀ (p : P) (m : RawMatch), (cfg.parseOf p m).range_start = false ∧
      (cfg.parseOf p m).range_end = false)
    (hg : GoodRangeList tags) :
    GoodRangeList (extract_abbrev_patten cfg tags text) := by
  have heq : extract_abbrev_patten cfg tags text =
      tags ++ tags.filterMap (abbrevSynth cfg text) := by
    unfold extract_abbrev_patten
    rw [abbrev_fold_filterMap]
    simp
  rw [heq]
  intro j tj hj hre
  rw [List.getElem?_append] at hj
  by_cases hjl : j < tags.length
  · rw [if_pos hjl] at hj
    obtain ⟨i, ti, si, ei, sj, ej, hi, hrs, hty, hspi, hspj, hlt⟩ :=
      hg j tj hj hre
    have hil : i < tags.length := (List.getElem?_eq_some.mp hi).1
    refine ⟨i, ti, si, ei, sj, ej, ?_, hrs, hty, hspi, hspj, hlt⟩
    rw [List.getElem?_append, if_pos hil]
    exact hi
  · rw [if_neg hjl] at hj
    exfalso
    have hmem : tj ∈ tags.filterMap (abbrevSynth cfg text) := by
      obtain ⟨hl, hgx⟩ := List.getElem?_eq_some.mp hj
      exact hgx ▸ List.getElem_mem hl
    obtain ⟨a, _, ha⟩ := List.mem_filterMap.mp hmem
    obtain ⟨p, m, _, hre2⟩ := abbrevSynth_from_parse cfg text a tj ha
    rw [hre2, (hpf p m).2] at hre
    exact absurd hre (by simp)

theorem finalizeTag_range_start {P : Type} (cfg : Config P) (i : Nat)
    (a : TIMEX P) : (finalizeTag cfg i a).range_start = a.range_start := by
  unfold finalizeTag
  cases cfg.reference <;> rfl

theorem finalizeTag_range_end {P : Type} (cfg : Config P) (i : Nat)
    (a : TIMEX P) : (finalizeTag cfg i a).range_end = a.range_end := by
  unfold finalizeTag
  cases cfg.reference <;> rfl

theorem finalizeTag_type {P : Type} (cfg : Config P) (i : Nat)
    (a : TIMEX P) : (finalizeTag cfg i a).type = a.type := by
  unfold finalizeTag
  cases cfg.reference <;> rfl

theorem finalizeTag_span {P : Type} (cfg : Config P) (i : Nat)
    (a : TIMEX P) : (finalizeTag cfg i a).span = a.span := by
  unfold finalizeTag
  cases cfg.reference <;> rfl

theorem finalizer_preserves_good {P : Type} (cfg : Config P)
    (tags : List (TIMEX P)) (hg : GoodRangeList tags) :
    ∀ (j : Nat) (tj : TIMEX P),
      (modify_additional_information cfg tags)[j]? = some tj →
      tj.range_end = true →
      ∃ (i : Nat) (ti : TIMEX P), i < j ∧
        (modify_additional_information cfg tags)[i]? = some ti ∧
        ti.range_start = true ∧ ti.type = tj.type := by
  intro j tj hj hre
  obtain ⟨b, hb, hfb⟩ := finalizer_form cfg tags j tj hj
  set srt := List.insertionSort
    (fun a b : TIMEX P => tagSortKey a ≤ tagSortKey b) tags with hsrt
  have hbre : b.range_end = true := by
    rw [hfb, finalizeTag_range_end] at hre
    exact hre
  have hbmem : b ∈ tags := by
    have : b ∈ srt := by
      obtain ⟨hl, hgx⟩ := List.getElem?_eq_some.mp hb
      exact hgx ▸ List.getElem_mem hl
    exact (List.mem_insertionSort _).mp this
  obtain ⟨jb, hjb, hjbeq⟩ := List.mem_iff_getElem.mp hbmem
  have hjb? : tags[jb]? = some b := by
    rw [List.getElem?_eq_getElem hjb, hjbeq]
  obtain ⟨i0, ti, si, ei, sj, ej, hi0, hrs, hty, hspi, hspj, hlt⟩ :=
    hg jb b hjb? hbre
  have htimem : ti ∈ srt := by
    rw [List.mem_insertionSort]
    obtain ⟨hl, hgx⟩ := List.getElem?_eq_some.mp hi0
    exact hgx ▸ List.getElem_mem hl
  obtain ⟨i1, hi1, hi1eq⟩ := List.mem_iff_getElem.mp htimem
  have hjlen : j < srt.length := by
    have := (List.getElem?_eq_some.mp hb).1
    omega
  have hi1j : i1 < j := by
    rcases Nat.lt_or_ge i1 j with h | h
    · exact h
    · exfalso
      rcases Nat.eq_or_lt_of_le h with h' | h'
      · have e1 : srt[j]? = some ti := by
          rw [h', List.getElem?_eq_getElem hi1, hi1eq]
        rw [hb] at e1
        have hbti : b = ti := by simpa using e1
        rw [hbti, hspi] at hspj
        have : si = sj ∧ ei = ej := by simpa using hspj
        omega
      · have hsorted := tagSortKey_sorted_insertionSort (P := P) tags
        have hpw := List.pairwise_iff_getElem.mp hsorted
        have hle := hpw j i1 hjlen hi1 h'
        rw [hi1eq] at hle
        have : srt[j] = b := by
          have := List.getElem?_eq_getElem hjlen
          rw [hb] at this
          simpa using this.symm
        rw [this] at hle
        have hkb : tagSortKey b = sj := by
          unfold tagSortKey
          rw [hspj]
        have hki : tagSortKey ti = si := by
          unfold tagSortKey
          rw [hspi]
        omega
  refine ⟨i1, finalizeTag cfg i1 ti, hi1j, ?_, ?_, ?_⟩
  · unfold modify_additional_information
    rw [List.getElem?_map, List.getElem?_enum, ← hsrt,
      List.getElem?_eq_getElem hi1, hi1eq]
    rfl
  · rw [finalizeTag_range_start, hrs]
  · rw [finalizeTag_type, hfb, finalizeTag_type, hty]

/-! ## Claim C6 -/

set_option maxHeartbeats 2000000 in
/-- C6: provided the pattern parse callbacks return tags with clear range
flags (their contract — §4.5 is the only stage that sets them), every tag
in the list returned by `parse` that carries `range_end = true` is preceded
in document order by a tag carrying `range_start = true` of the identical
type. -/
theorem parse_range_end_preceded_by_start {P : Type} (cfg : Config P)
    (hpf : ∀ (p : P) (m : RawMatch), (cfg.parseOf p m).range_start = false ∧
      (cfg.parseOf p m).range_end = false) (raw : Str) :
    ∀ (j : Nat) (tj : TIMEX P), (parse cfg raw)[j]? = some tj →
      tj.range_end = true →
      ∃ (i : Nat) (ti : TIMEX P), i < j ∧ (parse cfg raw)[i]? = some ti ∧
        ti.range_start = true ∧ ti.type = tj.type := by
  intro j tj hj hre
  have hg3 : GoodRangeList (extract_abbrev_patten cfg
      (modify_renge_start_and_end
        (parseStage cfg
          (drop_duplicates
            (extract_filter cfg (extractAll cfg (cfg.normalize raw))
              (cfg.normalize raw))
            (cfg.normalize raw)))
        (cfg.normalize raw))
      (cfg.normalize raw)) := by
    apply abbrev_preserves_good _ _ _ hpf
    apply modify_renge_good
    exact parseStage_flags_false cfg hpf _
  have hpar : parse cfg raw = modify_additional_information cfg
      (extract_abbrev_patten cfg
        (modify_renge_start_and_end
          (parseStage cfg
            (drop_duplicates
              (extract_filter cfg (extractAll cfg (cfg.normalize raw))
                (cfg.normalize raw))
              (cfg.normalize raw)))
          (cfg.normalize raw))
        (cfg.normalize raw)) := rfl
  rw [hpar] at hj
  obtain ⟨i, ti, hlt, hi, hrs, hty⟩ := finalizer_preserves_good cfg _ hg3 j tj hj hre
  refine ⟨i, ti, hlt, ?_, hrs, hty⟩
  rw [hpar]
  exact hi

/-- C6 witness: with `c6Cfg` on `"1d-2d"`, the callback contract holds,
the theorem applies, and the output indeed carries a `range_start` tag
before the `range_end` tag. -/
theorem parse_range_end_preceded_by_start_witness :
    (∀ (p : Nat) (m : RawMatch), (c6Cfg.parseOf p m).range_start = false ∧
      (c6Cfg.parseOf p m).range_end = false) ∧
    (∀ (j : Nat) (tj : TIMEX Nat),
      (parse c6Cfg "1d-2d".toList)[j]? = some tj → tj.range_end = true →
      ∃ (i : Nat) (ti : TIMEX Nat), i < j ∧
        (parse c6Cfg "1d-2d".toList)[i]? = some ti ∧
        ti.range_start = true ∧ ti.type = tj.type) ∧
    (parse c6Cfg "1d-2d".toList).map
      (fun t => (t.range_start, t.range_end)) =
      [(true, false), (false, true)] := by
  refine ⟨fun p m => ⟨rfl, rfl⟩, ?_, by decide⟩
  exact parse_range_end_preceded_by_start c6Cfg (fun p m => ⟨rfl, rfl⟩)
    "1d-2d".toList
